import Mathlib

/-!
Verification of semlette/retry: the retry loop of retry.go.

A shallow embedding of `Retryer.Run` (retry.go, lines 22-38) and of the eight
entry points built on it (lines 43-89).

* The operation `F`, the context's `Err` method and `time.Sleep` act on an
  explicit world state `σ` that is threaded through the run.
* Go's `int` is the 64-bit two's complement integer: `r.ran++` wraps.
* The field `Delay` is a pointer: nil, or the address of a duration that
  lives in the world and is read each time the code dereferences it.
* A `nil` function value or a `nil` context interface panics when used.
* The call `r.Run()` on line 35 is a nested call: Go does not eliminate it,
  each retry adds an activation of `Run` to the goroutine stack, and the
  runtime aborts with a fatal stack overflow when the stack has no room left.
  The room is a parameter of the run: the number of nested calls that fit.
* A ghost trace records every invocation of the operation, every sample of
  the context and every sleep, in the order in which the code performs them.
-/

namespace Retry

/-- Range of Go's `int` on a 64-bit platform. -/
def InRange (x : Int) : Prop := -9223372036854775808 ≤ x ∧ x < 9223372036854775808

instance (x : Int) : Decidable (InRange x) := by
  unfold InRange; exact inferInstance

/-- Two's complement wrap-around of an integer into the range of `int`. -/
def wrapInt (x : Int) : Int :=
  (x + 9223372036854775808) % 18446744073709551616 - 9223372036854775808

/-- Go's `int`. -/
abbrev GoInt : Type := { x : Int // InRange x }

/-- Conversion of an integer to `int`, wrapping around. -/
def GoInt.ofInt (x : Int) : GoInt :=
  ⟨wrapInt x, by unfold InRange wrapInt; omega⟩

/-- The increment `x++` on `int`. -/
def GoInt.inc (x : GoInt) : GoInt := GoInt.ofInt (x.val + 1)

/-- Go's `time.Duration` (an `int64` count of nanoseconds). -/
abbrev Duration : Type := Int

/-- `type Func func() (interface{}, error)`: one invocation reads and updates
the world and yields a result and an error, `none` being the nil error. -/
abbrev Func (σ ρ ε : Type) : Type := σ → (ρ × Option ε) × σ

/-- The part of `context.Context` that the package uses: the method `Err`. -/
structure Context (σ ε : Type) where
  Err : σ → Option ε × σ

/-- `context.Background()`: never cancelled, `Err` always returns nil. -/
def Background (σ ε : Type) : Context σ ε := ⟨fun s => (none, s)⟩

/-- `type Retryer struct`; `none` in `Ctx`, `F` or `Delay` is Go's nil. The
field `Delay *time.Duration` is a pointer: `some p` reads the duration it
points to from the world, so that the pointee can change between two sleeps. -/
structure Retryer (σ ρ ε : Type) where
  Ctx : Option (Context σ ε)
  F : Option (Func σ ρ ε)
  Max : GoInt
  ran : GoInt
  Delay : Option (σ → Duration)

/-- Observable actions of a run. -/
inductive Event (ρ ε : Type) where
  | call (out : ρ × Option ε)
  | sample (e : Option ε)
  | sleep (d : Duration)
deriving DecidableEq

/-- The two ways in which a run ends without returning. -/
inductive Fault where
  | nilDereference
  | stackOverflow
deriving DecidableEq

/-- What a run of `Run` leaves behind: the returned pair (`none` when the run
did not return), the fault that ended it (`none` when it returned), the final
world and the ghost trace. -/
structure Outcome (σ ρ ε : Type) where
  ret : Option (ρ × Option ε)
  fault : Option Fault
  state : σ
  trace : List (Event ρ ε)

/-- Put the events performed before a nested run in front of its trace. -/
def Outcome.after {σ ρ ε : Type} (es : List (Event ρ ε)) (o : Outcome σ ρ ε) :
    Outcome σ ρ ε :=
  { o with trace := es ++ o.trace }

/-- The block `if r.Delay != nil { time.Sleep(*r.Delay) }`: the world after it. -/
def delayState {σ : Type} (sleep : Duration → σ → σ) (delay : Option (σ → Duration))
    (s : σ) : σ :=
  match delay with
  | some p => sleep (p s) s
  | none => s

/-- The block `if r.Delay != nil { time.Sleep(*r.Delay) }`: its events. -/
def delayEvents {σ ρ ε : Type} (delay : Option (σ → Duration)) (s : σ) :
    List (Event ρ ε) :=
  match delay with
  | some p => [Event.sleep (p s)]
  | none => []

/-- Distance from `ran` to `Max` counted in increments of the wrapping
counter: the number of retries that the budget still allows. -/
def Retryer.togo {σ ρ ε : Type} (r : Retryer σ ρ ε) : Nat :=
  ((r.Max.val - r.ran.val) % 18446744073709551616).toNat

/-- `func (r Retryer) Run() (interface{}, error)`. The argument `depth` is the
number of nested calls of `Run` for which the stack has room below this
activation; when it is used up the call on line 35 aborts the program with a
fatal stack overflow, after the sleep and the increment of the counter. -/
def Run {σ ρ ε : Type} (sleep : Duration → σ → σ) (depth : Nat) (r : Retryer σ ρ ε)
    (s : σ) : Outcome σ ρ ε :=
  match r.F with
  | none => ⟨none, some Fault.nilDereference, s, []⟩
  | some f =>
    let out := f s
    if out.1.2.isSome then
      match r.Ctx with
      | none => ⟨none, some Fault.nilDereference, out.2, [Event.call out.1]⟩
      | some ctx =>
        let c := ctx.Err out.2
        if c.1.isSome then
          ⟨some out.1, none, c.2, [Event.call out.1, Event.sample c.1]⟩
        else if r.ran = r.Max then
          ⟨some out.1, none, c.2, [Event.call out.1, Event.sample c.1]⟩
        else
          match depth with
          | 0 =>
            ⟨none, some Fault.stackOverflow, delayState sleep r.Delay c.2,
              [Event.call out.1, Event.sample c.1] ++ delayEvents r.Delay c.2⟩
          | below + 1 =>
            Outcome.after ([Event.call out.1, Event.sample c.1] ++ delayEvents r.Delay c.2)
              (Run sleep below { r with ran := GoInt.inc r.ran }
                (delayState sleep r.Delay c.2))
    else
      ⟨some out.1, none, out.2, [Event.call out.1]⟩

/-- The zero value of `int`, the value of the field `ran` in a Retryer built
by a composite literal that does not mention it. -/
def GoInt.zero : GoInt := ⟨0, by unfold InRange; omega⟩

/-- The `int` 1. -/
def GoInt.one : GoInt := ⟨1, by unfold InRange; omega⟩

/-- The `int` 3. -/
def GoInt.three : GoInt := ⟨3, by unfold InRange; omega⟩

/-- The `int` -1, as in `Times(-1, f)`. -/
def GoInt.minusOne : GoInt := ⟨-1, by unfold InRange; omega⟩

/-- The `int` 10000000, as in `Times(10000000, f)`. -/
def GoInt.tenMillion : GoInt := ⟨10000000, by unfold InRange; omega⟩

/-! ### Reading a trace -/

/-- Is the event an invocation of the operation? -/
def Event.isCall {ρ ε : Type} : Event ρ ε → Bool
  | Event.call _ => true
  | _ => false

/-- Is the event an invocation of the operation that returned a non-nil error? -/
def Event.isFailedCall {ρ ε : Type} : Event ρ ε → Bool
  | Event.call out => out.2.isSome
  | _ => false

/-- Is the event a sample of the context? -/
def Event.isSample {ρ ε : Type} : Event ρ ε → Bool
  | Event.sample _ => true
  | _ => false

/-- The pair returned by an invocation event. -/
def Event.callOut {ρ ε : Type} : Event ρ ε → Option (ρ × Option ε)
  | Event.call out => some out
  | _ => none

/-- The duration of a sleep event. -/
def Event.sleepOf {ρ ε : Type} : Event ρ ε → Option Duration
  | Event.sleep d => some d
  | _ => none

/-- Number of invocations of the operation in a trace. -/
def calls {ρ ε : Type} (t : List (Event ρ ε)) : Nat := t.countP Event.isCall

/-- Number of invocations that returned a non-nil error. -/
def failedCalls {ρ ε : Type} (t : List (Event ρ ε)) : Nat := t.countP Event.isFailedCall

/-- Number of samples of the context in a trace. -/
def samples {ρ ε : Type} (t : List (Event ρ ε)) : Nat := t.countP Event.isSample

/-- The durations slept, in order. -/
def sleeps {ρ ε : Type} (t : List (Event ρ ε)) : List Duration := t.filterMap Event.sleepOf

/-- The pair produced by the last invocation of the operation in a trace. -/
def lastCall {ρ ε : Type} (t : List (Event ρ ε)) : Option (ρ × Option ε) :=
  (t.filterMap Event.callOut).getLast?

/-- The invocations and the sleeps of a trace in the order in which they
happen, the samples left out: `none` stands for an invocation of the
operation, `some d` for a sleep of `d`. -/
def callsAndSleeps {ρ ε : Type} (t : List (Event ρ ε)) : List (Option Duration) :=
  t.filterMap fun e =>
    match e with
    | Event.call _ => some none
    | Event.sleep d => some (some d)
    | Event.sample _ => none

/-- Recognises the traces in which every invocation that returned a non-nil
error is immediately followed by a sample of the context, and every sample
immediately follows such an invocation. -/
def sampledAfterFailures {ρ ε : Type} : List (Event ρ ε) → Bool
  | [] => true
  | Event.call out :: Event.sample _ :: rest => out.2.isSome && sampledAfterFailures rest
  | Event.call out :: rest => !out.2.isSome && sampledAfterFailures rest
  | Event.sample _ :: _ => false
  | Event.sleep _ :: rest => sampledAfterFailures rest

/-! ### The worlds in which successive attempts start -/

/-- The world in which the next attempt starts when the attempt started in `s`
fails and is retried: after `F`, after `Ctx.Err`, after the optional sleep. -/
def nextAttempt {σ ρ ε : Type} (sleep : Duration → σ → σ) (f : Func σ ρ ε)
    (c : Context σ ε) (delay : Option (σ → Duration)) (s : σ) : σ :=
  delayState sleep delay (c.Err (f s).2).2

/-- The world in which attempt number `k + 1` starts when the first `k`
attempts of a run started in `s` are all retried. -/
def attemptState {σ ρ ε : Type} (sleep : Duration → σ → σ) (f : Func σ ρ ε)
    (c : Context σ ε) (delay : Option (σ → Duration)) : Nat → σ → σ
  | 0, s => s
  | k + 1, s => attemptState sleep f c delay k (nextAttempt sleep f c delay s)

/-- What invocation number `k + 1` of the operation returns. -/
def attemptOut {σ ρ ε : Type} (sleep : Duration → σ → σ) (f : Func σ ρ ε)
    (c : Context σ ε) (delay : Option (σ → Duration)) (k : Nat) (s : σ) : ρ × Option ε :=
  (f (attemptState sleep f c delay k s)).1

/-- What the context reports when sampled after invocation number `k + 1`. -/
def attemptCtx {σ ρ ε : Type} (sleep : Duration → σ → σ) (f : Func σ ρ ε)
    (c : Context σ ε) (delay : Option (σ → Duration)) (k : Nat) (s : σ) : Option ε :=
  (c.Err (f (attemptState sleep f c delay k s)).2).1

/-- The world right after the sample that follows invocation number `k + 1`:
the world in which `*r.Delay` is read for the sleep after that attempt. -/
def sampledState {σ ρ ε : Type} (sleep : Duration → σ → σ) (f : Func σ ρ ε)
    (c : Context σ ε) (delay : Option (σ → Duration)) (k : Nat) (s : σ) : σ :=
  (c.Err (f (attemptState sleep f c delay k s)).2).2

/-- The events of the first `k` attempts of a run started in `s` when all of
them are retried: invocation, sample, optional sleep, `k` times. -/
def retriedTrace {σ ρ ε : Type} (sleep : Duration → σ → σ) (f : Func σ ρ ε)
    (c : Context σ ε) (delay : Option (σ → Duration)) : Nat → σ → List (Event ρ ε)
  | 0, _ => []
  | k + 1, s =>
    [Event.call (f s).1, Event.sample (c.Err (f s).2).1] ++
      delayEvents delay (c.Err (f s).2).2 ++
      retriedTrace sleep f c delay k (nextAttempt sleep f c delay s)

/-- `Retryer{F: f, Max: max, Ctx: ctx}` with the optional `Delay`, as the
entry points of the package build it: `ran` is zero. -/
def fresh {σ ρ ε : Type} (c : Context σ ε) (f : Func σ ρ ε) (max : GoInt)
    (delay : Option (σ → Duration)) : Retryer σ ρ ε :=
  { Ctx := some c, F := some f, Max := max, ran := GoInt.zero, Delay := delay }

/-- A pointer to a duration that nothing in the world can change, such as
`&delay` in the entry points, where `delay` is their own parameter. -/
def fixedDelay {σ : Type} (d : Duration) : Option (σ → Duration) := some fun _ => d

/-! ### The entry points of the package (retry.go, lines 43-89) -/

/-- `func OnceCtx(ctx context.Context, f Func)`. -/
def OnceCtx {σ ρ ε : Type} (sleep : Duration → σ → σ) (depth : Nat)
    (ctx : Option (Context σ ε)) (f : Option (Func σ ρ ε)) (s : σ) : Outcome σ ρ ε :=
  Run sleep depth
    { F := f, Max := GoInt.one, Ctx := ctx, ran := GoInt.zero, Delay := none } s

/-- `func Once(f Func)`. -/
def Once {σ ρ ε : Type} (sleep : Duration → σ → σ) (depth : Nat)
    (f : Option (Func σ ρ ε)) (s : σ) : Outcome σ ρ ε :=
  OnceCtx sleep depth (some (Background σ ε)) f s

/-- `func OnceDelayedCtx(ctx context.Context, f Func, delay time.Duration)`. -/
def OnceDelayedCtx {σ ρ ε : Type} (sleep : Duration → σ → σ) (depth : Nat)
    (ctx : Option (Context σ ε)) (f : Option (Func σ ρ ε)) (delay : Duration) (s : σ) :
    Outcome σ ρ ε :=
  Run sleep depth
    { F := f, Max := GoInt.one, Ctx := ctx, ran := GoInt.zero, Delay := fixedDelay delay } s

/-- `func OnceDelayed(f Func, delay time.Duration)`. -/
def OnceDelayed {σ ρ ε : Type} (sleep : Duration → σ → σ) (depth : Nat)
    (f : Option (Func σ ρ ε)) (delay : Duration) (s : σ) : Outcome σ ρ ε :=
  OnceDelayedCtx sleep depth (some (Background σ ε)) f delay s

/-- `func TimesCtx(ctx context.Context, amount int, f Func)`. -/
def TimesCtx {σ ρ ε : Type} (sleep : Duration → σ → σ) (depth : Nat)
    (ctx : Option (Context σ ε)) (amount : GoInt) (f : Option (Func σ ρ ε)) (s : σ) :
    Outcome σ ρ ε :=
  Run sleep depth { F := f, Max := amount, Ctx := ctx, ran := GoInt.zero, Delay := none } s

/-- `func Times(amount int, f Func)`. -/
def Times {σ ρ ε : Type} (sleep : Duration → σ → σ) (depth : Nat) (amount : GoInt)
    (f : Option (Func σ ρ ε)) (s : σ) : Outcome σ ρ ε :=
  TimesCtx sleep depth (some (Background σ ε)) amount f s

/-- `func TimesDelayedCtx(ctx context.Context, amount int, f Func, delay time.Duration)`. -/
def TimesDelayedCtx {σ ρ ε : Type} (sleep : Duration → σ → σ) (depth : Nat)
    (ctx : Option (Context σ ε)) (amount : GoInt) (f : Option (Func σ ρ ε))
    (delay : Duration) (s : σ) : Outcome σ ρ ε :=
  Run sleep depth
    { F := f, Max := amount, Ctx := ctx, ran := GoInt.zero, Delay := fixedDelay delay } s

/-- `func TimesDelayed(amount int, f Func, delay time.Duration)`. -/
def TimesDelayed {σ ρ ε : Type} (sleep : Duration → σ → σ) (depth : Nat) (amount : GoInt)
    (f : Option (Func σ ρ ε)) (delay : Duration) (s : σ) : Outcome σ ρ ε :=
  TimesDelayedCtx sleep depth (some (Background σ ε)) amount f delay s

/-- The rows of the table of entry points in section 4.2 of the specification. -/
inductive EntryPoint where
  | once
  | onceCtx
  | onceDelayed
  | onceDelayedCtx
  | times
  | timesCtx
  | timesDelayed
  | timesDelayedCtx
deriving DecidableEq

/-- Column `Max` of the table: 1 for the single retry rows, `N` for the others. -/
def EntryPoint.tableMax (amount : GoInt) : EntryPoint → GoInt
  | EntryPoint.once => GoInt.one
  | EntryPoint.onceCtx => GoInt.one
  | EntryPoint.onceDelayed => GoInt.one
  | EntryPoint.onceDelayedCtx => GoInt.one
  | EntryPoint.times => amount
  | EntryPoint.timesCtx => amount
  | EntryPoint.timesDelayed => amount
  | EntryPoint.timesDelayedCtx => amount

/-- Column `Delay` of the table: the duration of the caller, or none. -/
def EntryPoint.tableDelay {σ : Type} (d : Duration) : EntryPoint → Option (σ → Duration)
  | EntryPoint.once => none
  | EntryPoint.onceCtx => none
  | EntryPoint.onceDelayed => some fun _ => d
  | EntryPoint.onceDelayedCtx => some fun _ => d
  | EntryPoint.times => none
  | EntryPoint.timesCtx => none
  | EntryPoint.timesDelayed => some fun _ => d
  | EntryPoint.timesDelayedCtx => some fun _ => d

/-- Column `Context` of the table: the context of the caller, or the default
context, which never reports cancellation. -/
def EntryPoint.tableCtx {σ ε : Type} (ctx : Option (Context σ ε)) :
    EntryPoint → Option (Context σ ε)
  | EntryPoint.once => some ⟨fun s => (none, s)⟩
  | EntryPoint.onceCtx => ctx
  | EntryPoint.onceDelayed => some ⟨fun s => (none, s)⟩
  | EntryPoint.onceDelayedCtx => ctx
  | EntryPoint.times => some ⟨fun s => (none, s)⟩
  | EntryPoint.timesCtx => ctx
  | EntryPoint.timesDelayed => some ⟨fun s => (none, s)⟩
  | EntryPoint.timesDelayedCtx => ctx

/-- An entry point as the specification describes it: a Retryer built fresh
with the effective parameters of its row, and a call of `Run`. -/
def EntryPoint.byTable {σ ρ ε : Type} (sleep : Duration → σ → σ) (depth : Nat)
    (e : EntryPoint) (ctx : Option (Context σ ε)) (amount : GoInt)
    (f : Option (Func σ ρ ε)) (d : Duration) (s : σ) : Outcome σ ρ ε :=
  Run sleep depth
    { Ctx := e.tableCtx ctx, F := f, Max := e.tableMax amount, ran := GoInt.zero,
      Delay := e.tableDelay d } s

/-- The function of retry.go that each row of the table stands for. -/
def EntryPoint.inSource {σ ρ ε : Type} (sleep : Duration → σ → σ) (depth : Nat)
    (e : EntryPoint) (ctx : Option (Context σ ε)) (amount : GoInt)
    (f : Option (Func σ ρ ε)) (d : Duration) (s : σ) : Outcome σ ρ ε :=
  match e with
  | EntryPoint.once => Once sleep depth f s
  | EntryPoint.onceCtx => OnceCtx sleep depth ctx f s
  | EntryPoint.onceDelayed => OnceDelayed sleep depth f d s
  | EntryPoint.onceDelayedCtx => OnceDelayedCtx sleep depth ctx f d s
  | EntryPoint.times => Times sleep depth amount f s
  | EntryPoint.timesCtx => TimesCtx sleep depth ctx amount f s
  | EntryPoint.timesDelayed => TimesDelayed sleep depth amount f d s
  | EntryPoint.timesDelayedCtx => TimesDelayedCtx sleep depth ctx amount f d s

/-! ### The activations of `Run`, and the caller of `Run` -/

/-- The activations of `Run` in one run, outermost first: the value of the
receiver `r` with which each nested call `r.Run()` is entered. The control
flow is that of `Run`; the call on line 35 is made inside the activation that
makes it, which returns only when the nested call has returned. A call for
which the stack has no room is not entered. -/
def RunFrames {σ ρ ε : Type} (sleep : Duration → σ → σ) (depth : Nat)
    (r : Retryer σ ρ ε) (s : σ) : List (Retryer σ ρ ε) :=
  match r.F with
  | none => [r]
  | some f =>
    let out := f s
    if out.1.2.isSome then
      match r.Ctx with
      | none => [r]
      | some ctx =>
        let c := ctx.Err out.2
        if c.1.isSome then
          [r]
        else if r.ran = r.Max then
          [r]
        else
          match depth with
          | 0 => [r]
          | below + 1 =>
            r :: RunFrames sleep below { r with ran := GoInt.inc r.ran }
              (delayState sleep r.Delay c.2)
    else
      [r]

/-- The statement `r.Run()` in a caller that holds a Retryer in a variable:
`Run` has a value receiver (`func (r Retryer) Run()`), so the call works on a
copy and does not assign the variable of the caller. The result is the value
of that variable after the call together with the outcome of the run. -/
def callRun {σ ρ ε : Type} (sleep : Duration → σ → σ) (depth : Nat)
    (held : Retryer σ ρ ε) (s : σ) : Retryer σ ρ ε × Outcome σ ρ ε :=
  (held, Run sleep depth held s)

/-- Two statements `r.Run()` in a row on the same variable: the value of the
variable at the end, the outcome of the first run, and the outcome of the
second run, which is not made when the first one did not return. -/
def callRunTwice {σ ρ ε : Type} (sleep : Duration → σ → σ) (depth : Nat)
    (held : Retryer σ ρ ε) (s : σ) :
    Retryer σ ρ ε × Outcome σ ρ ε × Option (Outcome σ ρ ε) :=
  let first := callRun sleep depth held s
  match first.2.fault with
  | some _ => (first.1, first.2, none)
  | none =>
    let second := callRun sleep depth first.1 first.2.state
    (second.1, first.2, some second.2)

/-! ### The loop of the design notes -/

/-- The explicit loop that the specification asks for in place of the
recursion: the step is executed again and again, `n` is the number of retries
that the budget still allows, so the step runs at most `n + 1` times. A loop
does not nest, so it takes no room on the stack. -/
def runLoop {σ ρ ε : Type} (sleep : Duration → σ → σ) (f : Func σ ρ ε) (c : Context σ ε)
    (delay : Option (σ → Duration)) : Nat → σ → Outcome σ ρ ε
  | 0, s =>
    if (f s).1.2.isSome then
      ⟨some (f s).1, none, (c.Err (f s).2).2,
        [Event.call (f s).1, Event.sample (c.Err (f s).2).1]⟩
    else
      ⟨some (f s).1, none, (f s).2, [Event.call (f s).1]⟩
  | n + 1, s =>
    if (f s).1.2.isSome then
      if (c.Err (f s).2).1.isSome then
        ⟨some (f s).1, none, (c.Err (f s).2).2,
          [Event.call (f s).1, Event.sample (c.Err (f s).2).1]⟩
      else
        Outcome.after
          ([Event.call (f s).1, Event.sample (c.Err (f s).2).1] ++
            delayEvents delay (c.Err (f s).2).2)
          (runLoop sleep f c delay n (delayState sleep delay (c.Err (f s).2).2))
    else
      ⟨some (f s).1, none, (f s).2, [Event.call (f s).1]⟩

/-- A trace with its sleeps left out. -/
def withoutSleeps {ρ ε : Type} (t : List (Event ρ ε)) : List (Event ρ ε) :=
  t.filter fun e => (Event.sleepOf e).isNone

/-! ### The worlds of retry_test.go -/

/-- The world of the tests: the counter `times` that the test functions
increment, whether `cancel()` has been called, and the time slept so far. -/
structure TestWorld where
  times : Nat
  cancelled : Bool
  slept : Int
deriving DecidableEq

/-- The world at the start of a test. -/
def TestWorld.start : TestWorld := ⟨0, false, 0⟩

/-- `time.Sleep` in the test world: a non-positive duration returns at once. -/
def testSleep (d : Duration) (w : TestWorld) : TestWorld :=
  { w with slept := w.slept + max d 0 }

/-- The function `f` of TestOnce_RunsAgainIfError: counts and fails. -/
def alwaysFail : Func TestWorld String String :=
  fun w => (("error", some "error"), { w with times := w.times + 1 })

/-- The function `f` of TestOnce_ReturnsIfSuccessful: counts and succeeds. -/
def alwaysOk : Func TestWorld String String :=
  fun w => (("value", none), { w with times := w.times + 1 })

/-- The function `f` of TestOnceCtx_StopsIfContextCancelled: counts, cancels
the context and fails. -/
def cancelAndFail : Func TestWorld String String :=
  fun w => (("error", some "error"), { w with times := w.times + 1, cancelled := true })

/-- An operation that fails on its first `n` invocations and then succeeds. -/
def failUntil (n : Nat) : Func TestWorld String String :=
  fun w => (if w.times < n then ("error", some "error") else ("value", none),
    { w with times := w.times + 1 })

/-- An operation that fails on its first two invocations and then succeeds. -/
def failTwice : Func TestWorld String String := failUntil 2

/-- An operation that always fails and calls `cancel()` in its invocation
number `n`. -/
def cancelAt (n : Nat) : Func TestWorld String String :=
  fun w => (("error", some "error"),
    { w with times := w.times + 1, cancelled := w.cancelled || decide (w.times + 1 = n) })

/-- The context made by `context.WithCancel(context.Background())`. -/
def cancelCtx : Context TestWorld String :=
  ⟨fun w => (if w.cancelled then some "context canceled" else none, w)⟩

/-- A Retryer built without a context, `Retryer{F: f, Max: 3}`, around the
failing operation of the tests. -/
def failingNoCtx : Retryer TestWorld String String :=
  { Ctx := none, F := some alwaysFail, Max := GoInt.three, ran := GoInt.zero, Delay := none }

/-- The part of the test world that does not depend on the time slept. -/
def TestWorld.timeless (w : TestWorld) : Nat × Bool := (w.times, w.cancelled)

/-- The room for nested calls of `Run` on the stack of a goroutine started
with the default limit of one gigabyte, as the standard 64-bit toolchain
shows it: `Times(10000000, f)` with a failing `f` aborts with a fatal stack
overflow after 5592389 invocations, one for the outermost activation and one
for each of the 5592388 nested ones. -/
def observedDepth : Nat := 5592388

/-- A world that is one duration variable `d`, the operation that doubles it
and fails, and the Retryer `Retryer{Ctx: ctx, F: f, Max: 3, Delay: &d}`. -/
def doubleAndFail : Func Int String String :=
  fun d => (("error", some "error"), 2 * d)

/-- The Retryer whose `Delay` points to the variable that `doubleAndFail`
doubles. -/
def doublingRetryer : Retryer Int String String :=
  { Ctx := some (Background Int String), F := some doubleAndFail, Max := GoInt.three,
    ran := GoInt.zero, Delay := some fun d => d }

/-- `time.Sleep` in a world that keeps no clock. -/
def idleSleep (_ : Duration) (d : Int) : Int := d

/-! ### The endings of a run -/

/-- The three ways in which a run of a Retryer whose `F` and `Ctx` are set can
end after `k` retried attempts: attempt `k + 1` succeeds; or it fails with the
context cancelled or the budget used up; or all `depth + 1` attempts for which
the stack has room are retried and the next call overflows the stack. -/
def RunEnds {σ ρ ε : Type} (sleep : Duration → σ → σ) (f : Func σ ρ ε) (c : Context σ ε)
    (depth : Nat) (r : Retryer σ ρ ε) (s : σ) (k : Nat) : Prop :=
  (k ≤ depth ∧ (attemptOut sleep f c r.Delay k s).2 = none ∧
      Run sleep depth r s =
        ⟨some (attemptOut sleep f c r.Delay k s), none,
          (f (attemptState sleep f c r.Delay k s)).2,
          retriedTrace sleep f c r.Delay k s ++
            [Event.call (attemptOut sleep f c r.Delay k s)]⟩) ∨
    (k ≤ depth ∧ (attemptOut sleep f c r.Delay k s).2 ≠ none ∧
      (attemptCtx sleep f c r.Delay k s ≠ none ∨ k = r.togo) ∧
      Run sleep depth r s =
        ⟨some (attemptOut sleep f c r.Delay k s), none,
          (c.Err (f (attemptState sleep f c r.Delay k s)).2).2,
          retriedTrace sleep f c r.Delay k s ++
            [Event.call (attemptOut sleep f c r.Delay k s),
              Event.sample (attemptCtx sleep f c r.Delay k s)]⟩) ∨
    (k = depth + 1 ∧
      Run sleep depth r s =
        ⟨none, some Fault.stackOverflow, attemptState sleep f c r.Delay k s,
          retriedTrace sleep f c r.Delay k s⟩)

/-! ## Unfolding `Run` one step -/

theorem togo_inc {σ ρ ε : Type} (r : Retryer σ ρ ε) (h : ¬ r.ran = r.Max) :
    Retryer.togo { r with ran := GoInt.inc r.ran } + 1 = Retryer.togo r := by
  have hne : r.ran.val ≠ r.Max.val := fun e => h (Subtype.ext e)
  have h1 := r.ran.property
  have h2 := r.Max.property
  unfold InRange at h1 h2
  simp only [Retryer.togo, GoInt.inc, GoInt.ofInt, wrapInt]
  omega

theorem Run_nilF {σ ρ ε : Type} (sleep : Duration → σ → σ) (depth : Nat)
    (r : Retryer σ ρ ε) (s : σ) (hF : r.F = none) :
    Run sleep depth r s = ⟨none, some Fault.nilDereference, s, []⟩ := by
  rw [Run]; simp [hF]

theorem Run_success {σ ρ ε : Type} (sleep : Duration → σ → σ) (depth : Nat)
    (r : Retryer σ ρ ε) (s : σ) (f : Func σ ρ ε) (hF : r.F = some f)
    (hok : (f s).1.2 = none) :
    Run sleep depth r s = ⟨some (f s).1, none, (f s).2, [Event.call (f s).1]⟩ := by
  rw [Run]; simp [hF, hok]

theorem Run_nilCtx {σ ρ ε : Type} (sleep : Duration → σ → σ) (depth : Nat)
    (r : Retryer σ ρ ε) (s : σ) (f : Func σ ρ ε) (hF : r.F = some f) (hC : r.Ctx = none)
    (hfail : (f s).1.2 ≠ none) :
    Run sleep depth r s =
      ⟨none, some Fault.nilDereference, (f s).2, [Event.call (f s).1]⟩ := by
  rw [Run]; simp [hF, hC, Option.isSome_iff_ne_none, hfail]

theorem Run_stop {σ ρ ε : Type} (sleep : Duration → σ → σ) (depth : Nat)
    (r : Retryer σ ρ ε) (s : σ) (f : Func σ ρ ε) (c : Context σ ε) (hF : r.F = some f)
    (hC : r.Ctx = some c) (hfail : (f s).1.2 ≠ none)
    (hstop : (c.Err (f s).2).1 ≠ none ∨ r.ran = r.Max) :
    Run sleep depth r s = ⟨some (f s).1, none, (c.Err (f s).2).2,
      [Event.call (f s).1, Event.sample (c.Err (f s).2).1]⟩ := by
  rw [Run]
  simp only [hF, hC, Option.isSome_iff_ne_none, ne_eq, hfail, not_false_eq_true, if_true]
  by_cases hc : (c.Err (f s).2).1 = none
  · have hm : r.ran = r.Max := hstop.resolve_left (fun h => h hc)
    simp [hc, hm]
  · simp [hc]

theorem Run_retry {σ ρ ε : Type} (sleep : Duration → σ → σ) (below : Nat)
    (r : Retryer σ ρ ε) (s : σ) (f : Func σ ρ ε) (c : Context σ ε) (hF : r.F = some f)
    (hC : r.Ctx = some c) (hfail : (f s).1.2 ≠ none) (hlive : (c.Err (f s).2).1 = none)
    (hne : ¬ r.ran = r.Max) :
    Run sleep (below + 1) r s =
      Outcome.after
        ([Event.call (f s).1, Event.sample (c.Err (f s).2).1] ++
          delayEvents r.Delay (c.Err (f s).2).2)
        (Run sleep below { r with ran := GoInt.inc r.ran }
          (delayState sleep r.Delay (c.Err (f s).2).2)) := by
  rw [Run]
  simp [hF, hC, Option.isSome_iff_ne_none, hfail, hlive, hne]

theorem Run_overflow {σ ρ ε : Type} (sleep : Duration → σ → σ)
    (r : Retryer σ ρ ε) (s : σ) (f : Func σ ρ ε) (c : Context σ ε) (hF : r.F = some f)
    (hC : r.Ctx = some c) (hfail : (f s).1.2 ≠ none) (hlive : (c.Err (f s).2).1 = none)
    (hne : ¬ r.ran = r.Max) :
    Run sleep 0 r s =
      ⟨none, some Fault.stackOverflow, delayState sleep r.Delay (c.Err (f s).2).2,
        [Event.call (f s).1, Event.sample (c.Err (f s).2).1] ++
          delayEvents r.Delay (c.Err (f s).2).2⟩ := by
  rw [Run]
  simp [hF, hC, Option.isSome_iff_ne_none, hfail, hlive, hne]

/-! ## Several retried attempts in a row -/

theorem togo_zero_iff {σ ρ ε : Type} (r : Retryer σ ρ ε) : r.togo = 0 ↔ r.ran = r.Max := by
  have h1 := r.ran.property
  have h2 := r.Max.property
  unfold InRange at h1 h2
  rw [Subtype.ext_iff]
  simp only [Retryer.togo]
  omega

theorem togo_fresh {σ ρ ε : Type} (c : Context σ ε) (f : Func σ ρ ε) (max : GoInt)
    (delay : Option (σ → Duration)) (hmax : 0 ≤ max.val) :
    (fresh c f max delay : Retryer σ ρ ε).togo = max.val.toNat := by
  have h2 := max.property
  unfold InRange at h2
  simp only [Retryer.togo, fresh, GoInt.zero]
  omega

theorem attemptState_succ {σ ρ ε : Type} (sleep : Duration → σ → σ) (f : Func σ ρ ε)
    (c : Context σ ε) (delay : Option (σ → Duration)) (k : Nat) :
    ∀ s, attemptState sleep f c delay (k + 1) s =
      nextAttempt sleep f c delay (attemptState sleep f c delay k s) := by
  induction k with
  | zero => intro s; rfl
  | succ k ih =>
    intro s
    exact ih (nextAttempt sleep f c delay s)

theorem retriedTrace_succ {σ ρ ε : Type} (sleep : Duration → σ → σ) (f : Func σ ρ ε)
    (c : Context σ ε) (delay : Option (σ → Duration)) (k : Nat) :
    ∀ s, retriedTrace sleep f c delay (k + 1) s =
      retriedTrace sleep f c delay k s ++
        ([Event.call (attemptOut sleep f c delay k s),
            Event.sample (attemptCtx sleep f c delay k s)] ++
          delayEvents delay (sampledState sleep f c delay k s)) := by
  induction k with
  | zero => intro s; simp [retriedTrace, attemptOut, attemptCtx, sampledState, attemptState]
  | succ k ih =>
    intro s
    have h := ih (nextAttempt sleep f c delay s)
    rw [retriedTrace, h]
    simp [retriedTrace, attemptOut, attemptCtx, sampledState, attemptState]

/-- If the first `k` attempts fail without cancellation, the budget allows
`k` retries and the stack has room for `k` nested calls, the run performs
them and continues with the counter advanced. -/
theorem Run_retried {σ ρ ε : Type} (sleep : Duration → σ → σ) (f : Func σ ρ ε)
    (c : Context σ ε) (k : Nat) :
    ∀ (depth : Nat) (r : Retryer σ ρ ε) (s : σ), r.F = some f → r.Ctx = some c →
      k ≤ r.togo → k ≤ depth →
      (∀ i, i < k → (attemptOut sleep f c r.Delay i s).2 ≠ none ∧
        attemptCtx sleep f c r.Delay i s = none) →
      ∃ r2 : Retryer σ ρ ε, r2.F = some f ∧ r2.Ctx = some c ∧ r2.Delay = r.Delay ∧
        r2.Max = r.Max ∧ r2.togo + k = r.togo ∧
        Run sleep depth r s = Outcome.after (retriedTrace sleep f c r.Delay k s)
          (Run sleep (depth - k) r2 (attemptState sleep f c r.Delay k s)) := by
  induction k with
  | zero =>
    intro depth r s hF hC _ _ _
    exact ⟨r, hF, hC, rfl, rfl, rfl, by simp [Outcome.after, retriedTrace, attemptState]⟩
  | succ k ih =>
    intro depth r s hF hC hk hd hall
    obtain ⟨below, rfl⟩ : ∃ below, depth = below + 1 := ⟨depth - 1, by omega⟩
    have h0 := hall 0 (Nat.succ_pos k)
    have hne : ¬ r.ran = r.Max := by
      rw [← togo_zero_iff]; omega
    have hstep := Run_retry sleep below r s f c hF hC h0.1 h0.2 hne
    have htg := togo_inc r hne
    obtain ⟨r2, h2F, h2C, h2D, h2M, h2t, h2R⟩ :=
      ih below { r with ran := GoInt.inc r.ran } (nextAttempt sleep f c r.Delay s) hF hC
        (by omega) (by omega) (fun i hi => hall (i + 1) (Nat.succ_lt_succ hi))
    refine ⟨r2, h2F, h2C, h2D, h2M, by omega, ?_⟩
    rw [hstep]
    simp only [nextAttempt] at h2R
    rw [h2R]
    simp [Outcome.after, retriedTrace, attemptState, nextAttempt]

/-- A run whose first `k` attempts are retried and whose next attempt succeeds. -/
theorem Run_ends_success {σ ρ ε : Type} (sleep : Duration → σ → σ) (f : Func σ ρ ε)
    (c : Context σ ε) (k depth : Nat) (r : Retryer σ ρ ε) (s : σ)
    (hF : r.F = some f) (hC : r.Ctx = some c) (hk : k ≤ r.togo) (hd : k ≤ depth)
    (hall : ∀ i, i < k → (attemptOut sleep f c r.Delay i s).2 ≠ none ∧
      attemptCtx sleep f c r.Delay i s = none)
    (hok : (attemptOut sleep f c r.Delay k s).2 = none) :
    Run sleep depth r s =
      ⟨some (attemptOut sleep f c r.Delay k s), none,
        (f (attemptState sleep f c r.Delay k s)).2,
        retriedTrace sleep f c r.Delay k s ++
          [Event.call (attemptOut sleep f c r.Delay k s)]⟩ := by
  obtain ⟨r2, h2F, _, _, _, _, h2R⟩ := Run_retried sleep f c k depth r s hF hC hk hd hall
  rw [h2R, Run_success sleep _ r2 _ f h2F hok]
  simp [Outcome.after, attemptOut]

/-- A run whose first `k` attempts are retried and whose next attempt fails
with the context cancelled or the budget used up. -/
theorem Run_ends_stop {σ ρ ε : Type} (sleep : Duration → σ → σ) (f : Func σ ρ ε)
    (c : Context σ ε) (k depth : Nat) (r : Retryer σ ρ ε) (s : σ)
    (hF : r.F = some f) (hC : r.Ctx = some c) (hk : k ≤ r.togo) (hd : k ≤ depth)
    (hall : ∀ i, i < k → (attemptOut sleep f c r.Delay i s).2 ≠ none ∧
      attemptCtx sleep f c r.Delay i s = none)
    (hfail : (attemptOut sleep f c r.Delay k s).2 ≠ none)
    (hstop : attemptCtx sleep f c r.Delay k s ≠ none ∨ k = r.togo) :
    Run sleep depth r s =
      ⟨some (attemptOut sleep f c r.Delay k s), none,
        (c.Err (f (attemptState sleep f c r.Delay k s)).2).2,
        retriedTrace sleep f c r.Delay k s ++
          [Event.call (attemptOut sleep f c r.Delay k s),
            Event.sample (attemptCtx sleep f c r.Delay k s)]⟩ := by
  obtain ⟨r2, h2F, h2C, _, _, h2t, h2R⟩ :=
    Run_retried sleep f c k depth r s hF hC hk hd hall
  have hstop2 : (c.Err (f (attemptState sleep f c r.Delay k s)).2).1 ≠ none ∨
      r2.ran = r2.Max := by
    rcases hstop with h | h
    · exact Or.inl h
    · right
      rw [← togo_zero_iff]; omega
  rw [h2R, Run_stop sleep _ r2 _ f c h2F h2C hfail hstop2]
  simp [Outcome.after, attemptOut, attemptCtx]

/-- A run whose first `depth + 1` attempts all fail without cancellation and
within the budget: the call for attempt `depth + 2` finds no room on the
stack. -/
theorem Run_ends_overflow {σ ρ ε : Type} (sleep : Duration → σ → σ) (f : Func σ ρ ε)
    (c : Context σ ε) (depth : Nat) (r : Retryer σ ρ ε) (s : σ)
    (hF : r.F = some f) (hC : r.Ctx = some c) (hk : depth < r.togo)
    (hall : ∀ i, i < depth + 1 → (attemptOut sleep f c r.Delay i s).2 ≠ none ∧
      attemptCtx sleep f c r.Delay i s = none) :
    Run sleep depth r s =
      ⟨none, some Fault.stackOverflow, attemptState sleep f c r.Delay (depth + 1) s,
        retriedTrace sleep f c r.Delay (depth + 1) s⟩ := by
  obtain ⟨r2, h2F, h2C, h2D, _, h2t, h2R⟩ :=
    Run_retried sleep f c depth depth r s hF hC (by omega) (Nat.le_refl _)
      (fun i hi => hall i (by omega))
  have hne : ¬ r2.ran = r2.Max := by
    rw [← togo_zero_iff]; omega
  have hlast := hall depth (Nat.lt_succ_self depth)
  rw [h2R, Nat.sub_self, Run_overflow sleep r2 _ f c h2F h2C hlast.1 hlast.2 hne,
    retriedTrace_succ, attemptState_succ, h2D]
  simp [Outcome.after, attemptOut, attemptCtx, sampledState, nextAttempt]

/-- The shape of every run of a Retryer whose `F` and `Ctx` are set: some
number `k` of retried attempts, within the budget, and then one of the three
endings. -/
theorem Run_shape {σ ρ ε : Type} (sleep : Duration → σ → σ) (f : Func σ ρ ε)
    (c : Context σ ε) (depth : Nat) :
    ∀ (r : Retryer σ ρ ε) (s : σ), r.F = some f → r.Ctx = some c →
      ∃ k, k ≤ r.togo ∧
        (∀ i, i < k → (attemptOut sleep f c r.Delay i s).2 ≠ none ∧
          attemptCtx sleep f c r.Delay i s = none) ∧
        RunEnds sleep f c depth r s k := by
  have hnone : ∀ (r : Retryer σ ρ ε) (s : σ) (i : Nat), i < 0 →
      (attemptOut sleep f c r.Delay i s).2 ≠ none ∧ attemptCtx sleep f c r.Delay i s = none :=
    fun _ _ i hi => absurd hi (Nat.not_lt_zero i)
  have hfirst : ∀ (depth : Nat) (r : Retryer σ ρ ε) (s : σ), r.F = some f →
      r.Ctx = some c →
      ((attemptOut sleep f c r.Delay 0 s).2 = none ∨
        attemptCtx sleep f c r.Delay 0 s ≠ none ∨ r.togo = 0) →
      ∃ k, k ≤ r.togo ∧
        (∀ i, i < k → (attemptOut sleep f c r.Delay i s).2 ≠ none ∧
          attemptCtx sleep f c r.Delay i s = none) ∧
        RunEnds sleep f c depth r s k := by
    intro depth r s hF hC h
    refine ⟨0, Nat.zero_le _, hnone r s, ?_⟩
    by_cases hok : (attemptOut sleep f c r.Delay 0 s).2 = none
    · exact Or.inl ⟨Nat.zero_le _, hok,
        Run_ends_success sleep f c 0 depth r s hF hC (Nat.zero_le _) (Nat.zero_le _)
          (hnone r s) hok⟩
    · have hstop : attemptCtx sleep f c r.Delay 0 s ≠ none ∨ 0 = r.togo := by
        rcases h with h | h | h
        · exact absurd h hok
        · exact Or.inl h
        · exact Or.inr h.symm
      exact Or.inr (Or.inl ⟨Nat.zero_le _, hok, hstop,
        Run_ends_stop sleep f c 0 depth r s hF hC (Nat.zero_le _) (Nat.zero_le _)
          (hnone r s) hok hstop⟩)
  induction depth with
  | zero =>
    intro r s hF hC
    by_cases hgo : (attemptOut sleep f c r.Delay 0 s).2 = none ∨
        attemptCtx sleep f c r.Delay 0 s ≠ none ∨ r.togo = 0
    · exact hfirst 0 r s hF hC hgo
    · have hok : (attemptOut sleep f c r.Delay 0 s).2 ≠ none := fun h => hgo (Or.inl h)
      have hlive : attemptCtx sleep f c r.Delay 0 s = none := by
        by_contra h
        exact hgo (Or.inr (Or.inl h))
      have htg : r.togo ≠ 0 := fun h => hgo (Or.inr (Or.inr h))
      have hall : ∀ i, i < 0 + 1 → (attemptOut sleep f c r.Delay i s).2 ≠ none ∧
          attemptCtx sleep f c r.Delay i s = none := by
        intro i hi
        have : i = 0 := by omega
        subst this
        exact ⟨hok, hlive⟩
      exact ⟨1, by omega, hall,
        Or.inr (Or.inr ⟨rfl, Run_ends_overflow sleep f c 0 r s hF hC (by omega) hall⟩)⟩
  | succ depth ih =>
    intro r s hF hC
    by_cases hgo : (attemptOut sleep f c r.Delay 0 s).2 = none ∨
        attemptCtx sleep f c r.Delay 0 s ≠ none ∨ r.togo = 0
    · exact hfirst (depth + 1) r s hF hC hgo
    · have hok : (attemptOut sleep f c r.Delay 0 s).2 ≠ none := fun h => hgo (Or.inl h)
      have hlive : attemptCtx sleep f c r.Delay 0 s = none := by
        by_contra h
        exact hgo (Or.inr (Or.inl h))
      have htg0 : r.togo ≠ 0 := fun h => hgo (Or.inr (Or.inr h))
      have hne : ¬ r.ran = r.Max := by
        rw [← togo_zero_iff]; exact htg0
      have htg := togo_inc r hne
      obtain ⟨k, hk, hall, hend⟩ :=
        ih { r with ran := GoInt.inc r.ran } (nextAttempt sleep f c r.Delay s) hF hC
      have hall2 : ∀ i, i < k + 1 → (attemptOut sleep f c r.Delay i s).2 ≠ none ∧
          attemptCtx sleep f c r.Delay i s = none := by
        intro i hi
        cases i with
        | zero => exact ⟨hok, hlive⟩
        | succ j => exact hall j (Nat.lt_of_succ_lt_succ hi)
      refine ⟨k + 1, by omega, hall2, ?_⟩
      rcases hend with ⟨hkd, h1, _⟩ | ⟨hkd, h1, h2, _⟩ | ⟨hkd, _⟩
      · exact Or.inl ⟨by omega, h1,
          Run_ends_success sleep f c (k + 1) (depth + 1) r s hF hC (by omega) (by omega)
            hall2 h1⟩
      · have h3 : attemptCtx sleep f c r.Delay (k + 1) s ≠ none ∨ k + 1 = r.togo := by
          rcases h2 with h | h
          · exact Or.inl h
          · exact Or.inr (by omega)
        exact Or.inr (Or.inl ⟨by omega, h1, h3,
          Run_ends_stop sleep f c (k + 1) (depth + 1) r s hF hC (by omega) (by omega)
            hall2 h1 h3⟩)
      · subst hkd
        exact Or.inr (Or.inr ⟨rfl,
          Run_ends_overflow sleep f c (depth + 1) r s hF hC (by omega) hall2⟩)

/-- With room on the stack for as many nested calls as the budget allows
retries, the run does not end by a stack overflow. -/
theorem RunEnds_of_room {σ ρ ε : Type} (sleep : Duration → σ → σ) (f : Func σ ρ ε)
    (c : Context σ ε) (depth : Nat) (r : Retryer σ ρ ε) (s : σ) (k : Nat)
    (hk : k ≤ r.togo) (hroom : r.togo ≤ depth) (hend : RunEnds sleep f c depth r s k) :
    (Run sleep depth r s).fault = none ∧
      (Run sleep depth r s).ret = some (attemptOut sleep f c r.Delay k s) := by
  rcases hend with ⟨_, _, hrun⟩ | ⟨_, _, _, hrun⟩ | ⟨hkd, _⟩
  · rw [hrun]; exact ⟨rfl, rfl⟩
  · rw [hrun]; exact ⟨rfl, rfl⟩
  · omega

/-! ## Reading the trace of a run -/

theorem calls_retriedTrace {σ ρ ε : Type} (sleep : Duration → σ → σ) (f : Func σ ρ ε)
    (c : Context σ ε) (delay : Option (σ → Duration)) (k : Nat) :
    ∀ s, calls (retriedTrace sleep f c delay k s) = k := by
  induction k with
  | zero => intro s; simp [retriedTrace, calls]
  | succ k ih =>
    intro s
    have h := ih (nextAttempt sleep f c delay s)
    unfold calls at h ⊢
    cases delay <;>
      simp [retriedTrace, delayEvents, List.countP_cons, List.countP_append,
        Event.isCall, h]

theorem samples_retriedTrace {σ ρ ε : Type} (sleep : Duration → σ → σ) (f : Func σ ρ ε)
    (c : Context σ ε) (delay : Option (σ → Duration)) (k : Nat) :
    ∀ s, samples (retriedTrace sleep f c delay k s) = k := by
  induction k with
  | zero => intro s; simp [retriedTrace, samples]
  | succ k ih =>
    intro s
    have h := ih (nextAttempt sleep f c delay s)
    unfold samples at h ⊢
    cases delay <;>
      simp [retriedTrace, delayEvents, List.countP_cons, List.countP_append,
        Event.isSample, h]

theorem failedCalls_retriedTrace {σ ρ ε : Type} (sleep : Duration → σ → σ) (f : Func σ ρ ε)
    (c : Context σ ε) (delay : Option (σ → Duration)) (k : Nat) :
    ∀ s, (∀ i, i < k → (attemptOut sleep f c delay i s).2 ≠ none) →
      failedCalls (retriedTrace sleep f c delay k s) = k := by
  induction k with
  | zero => intro s _; simp [retriedTrace, failedCalls]
  | succ k ih =>
    intro s hall
    have h := ih (nextAttempt sleep f c delay s)
      (fun i hi => hall (i + 1) (Nat.succ_lt_succ hi))
    have h0 : ((f s).1.2).isSome = true :=
      Option.isSome_iff_ne_none.mpr (hall 0 (Nat.succ_pos k))
    unfold failedCalls at h ⊢
    cases delay <;>
      simp [retriedTrace, delayEvents, List.countP_cons, List.countP_append,
        Event.isFailedCall, h, h0]

/-- The sleeps of `k` retried attempts: each lasts what `*r.Delay` holds in the
world right after the sample that precedes it. -/
theorem sleeps_retriedTrace_some {σ ρ ε : Type} (sleep : Duration → σ → σ) (f : Func σ ρ ε)
    (c : Context σ ε) (p : σ → Duration) (k : Nat) :
    ∀ s, sleeps (retriedTrace sleep f c (some p) k s : List (Event ρ ε)) =
      List.map (fun i : Nat => p (sampledState sleep f c (some p) i s)) (List.range k) := by
  induction k with
  | zero => intro s; simp [retriedTrace, sleeps]
  | succ k ih =>
    intro s
    have h := ih (nextAttempt sleep f c (some p) s)
    unfold sleeps at h ⊢
    rw [List.range_succ_eq_map]
    simp only [retriedTrace, delayEvents, List.append_assoc, List.cons_append,
      List.nil_append, List.filterMap_cons, Event.sleepOf, h, List.map_cons, List.map_map]
    rfl

theorem sleeps_retriedTrace_fixed {σ ρ ε : Type} (sleep : Duration → σ → σ)
    (f : Func σ ρ ε) (c : Context σ ε) (p : σ → Duration) (d : Duration) (k : Nat) (s : σ)
    (hfix : ∀ i, i < k → p (sampledState sleep f c (some p) i s) = d) :
    sleeps (retriedTrace sleep f c (some p) k s : List (Event ρ ε)) = List.replicate k d := by
  rw [sleeps_retriedTrace_some]
  apply List.ext_getElem
  · simp
  · intro i h1 h2
    simp only [List.length_map, List.length_range] at h1
    simp [hfix i h1]

theorem sleeps_retriedTrace_none {σ ρ ε : Type} (sleep : Duration → σ → σ) (f : Func σ ρ ε)
    (c : Context σ ε) (k : Nat) :
    ∀ s, sleeps (retriedTrace sleep f c none k s) = [] := by
  induction k with
  | zero => intro s; simp [retriedTrace, sleeps]
  | succ k ih =>
    intro s
    have h := ih (nextAttempt sleep f c none s)
    unfold sleeps at h ⊢
    simp [retriedTrace, delayEvents, List.filterMap_cons, Event.sleepOf, h]

theorem lastCall_success {ρ ε : Type} (t : List (Event ρ ε)) (out : ρ × Option ε) :
    lastCall (t ++ [Event.call out]) = some out := by
  simp [lastCall, List.filterMap_append, List.filterMap_cons, Event.callOut]

theorem lastCall_stop {ρ ε : Type} (t : List (Event ρ ε)) (out : ρ × Option ε)
    (e : Option ε) :
    lastCall (t ++ [Event.call out, Event.sample e]) = some out := by
  simp [lastCall, List.filterMap_append, List.filterMap_cons, Event.callOut]

theorem lastCall_overflow {σ ρ ε : Type} (sleep : Duration → σ → σ) (f : Func σ ρ ε)
    (c : Context σ ε) (delay : Option (σ → Duration)) (k : Nat) (s : σ) :
    lastCall (retriedTrace sleep f c delay (k + 1) s) =
      some (attemptOut sleep f c delay k s) := by
  rw [retriedTrace_succ]
  cases delay <;>
    simp [lastCall, delayEvents, List.filterMap_append, List.filterMap_cons, Event.callOut]

theorem callsAndSleeps_retriedTrace {σ ρ ε : Type} (sleep : Duration → σ → σ)
    (f : Func σ ρ ε) (c : Context σ ε) (p : σ → Duration) (d : Duration)
    (tl : List (Event ρ ε)) (htl : callsAndSleeps tl = [none]) (k : Nat) :
    ∀ s, (∀ i, i < k → p (sampledState sleep f c (some p) i s) = d) →
      callsAndSleeps (retriedTrace sleep f c (some p) k s ++ tl) =
        List.intersperse (some d) (List.replicate (k + 1) none) := by
  induction k with
  | zero => intro s _; simp [retriedTrace, htl]
  | succ k ih =>
    intro s hfix
    have h := ih (nextAttempt sleep f c (some p) s)
      (fun i hi => hfix (i + 1) (Nat.succ_lt_succ hi))
    have h0 : p (c.Err (f s).2).2 = d := hfix 0 (Nat.succ_pos k)
    unfold callsAndSleeps at h ⊢
    simp only [retriedTrace, delayEvents, List.append_assoc, List.cons_append,
      List.nil_append, List.filterMap_cons, h, h0]
    simp [List.replicate_succ, List.intersperse]

/-- Where the sleeps fall among the invocations, whatever they last. -/
theorem sleepPlaces_retriedTrace {σ ρ ε : Type} (sleep : Duration → σ → σ)
    (f : Func σ ρ ε) (c : Context σ ε) (p : σ → Duration)
    (tl : List (Event ρ ε)) (htl : callsAndSleeps tl = [none]) (k : Nat) :
    ∀ s, (callsAndSleeps (retriedTrace sleep f c (some p) k s ++ tl)).map Option.isSome =
        List.intersperse true (List.replicate (k + 1) false) := by
  induction k with
  | zero => intro s; simp [retriedTrace, htl]
  | succ k ih =>
    intro s
    have h := ih (nextAttempt sleep f c (some p) s)
    unfold callsAndSleeps at h ⊢
    simp only [retriedTrace, delayEvents, List.append_assoc, List.cons_append,
      List.nil_append, List.filterMap_cons, List.map_cons, h]
    simp [List.replicate_succ, List.intersperse]

theorem sampledAfterFailures_retriedTrace {σ ρ ε : Type} (sleep : Duration → σ → σ)
    (f : Func σ ρ ε) (c : Context σ ε) (delay : Option (σ → Duration))
    (tl : List (Event ρ ε)) (k : Nat) :
    ∀ s, (∀ i, i < k → (attemptOut sleep f c delay i s).2 ≠ none) →
      sampledAfterFailures (retriedTrace sleep f c delay k s ++ tl) =
        sampledAfterFailures tl := by
  induction k with
  | zero => intro s _; simp [retriedTrace]
  | succ k ih =>
    intro s hall
    have h := ih (nextAttempt sleep f c delay s)
      (fun i hi => hall (i + 1) (Nat.succ_lt_succ hi))
    have h0 : ((f s).1.2).isSome = true :=
      Option.isSome_iff_ne_none.mpr (hall 0 (Nat.succ_pos k))
    cases delay <;>
      simp [retriedTrace, delayEvents, sampledAfterFailures, h, h0]

/-- The number of invocations of a run from its ending. -/
theorem calls_of_RunEnds {σ ρ ε : Type} (sleep : Duration → σ → σ) (f : Func σ ρ ε)
    (c : Context σ ε) (depth : Nat) (r : Retryer σ ρ ε) (s : σ) (k : Nat)
    (hend : RunEnds sleep f c depth r s k) :
    ((Run sleep depth r s).fault = none ∧ calls (Run sleep depth r s).trace = k + 1) ∨
      ((Run sleep depth r s).fault = some Fault.stackOverflow ∧ k = depth + 1 ∧
        calls (Run sleep depth r s).trace = k) := by
  have hc := calls_retriedTrace sleep f c r.Delay k s
  rcases hend with ⟨_, _, hrun⟩ | ⟨_, _, _, hrun⟩ | ⟨hkd, hrun⟩
  · left
    rw [hrun]
    unfold calls at hc ⊢
    simp [List.countP_append, hc, List.countP_cons, Event.isCall]
  · left
    rw [hrun]
    unfold calls at hc ⊢
    simp [List.countP_append, hc, List.countP_cons, Event.isCall]
  · right
    rw [hrun]
    exact ⟨rfl, hkd, hc⟩

/-- Number of invocations of a run: at least one, at most one more than the
budget allows retries, at most one more than the stack has room for nested
calls. -/
theorem calls_bounds {σ ρ ε : Type} (sleep : Duration → σ → σ) (f : Func σ ρ ε)
    (c : Context σ ε) (depth : Nat) (r : Retryer σ ρ ε) (s : σ) (hF : r.F = some f)
    (hC : r.Ctx = some c) :
    1 ≤ calls (Run sleep depth r s).trace ∧
      calls (Run sleep depth r s).trace ≤ r.togo + 1 ∧
      calls (Run sleep depth r s).trace ≤ depth + 1 := by
  obtain ⟨k, hk, _, hend⟩ := Run_shape sleep f c depth r s hF hC
  have hkd : k ≤ depth + 1 := by
    rcases hend with ⟨h, _⟩ | ⟨h, _⟩ | ⟨h, _⟩ <;> omega
  rcases calls_of_RunEnds sleep f c depth r s k hend with ⟨_, h⟩ | ⟨_, h1, h⟩
  · rcases hend with ⟨h2, _⟩ | ⟨h2, _⟩ | ⟨h2, hrun⟩
    · omega
    · omega
    · have hc := calls_retriedTrace sleep f c r.Delay k s
      rw [hrun] at h
      simp only [] at h
      omega
  · omega

/-- With room on the stack for the whole budget the run returns. -/
theorem returns_of_room {σ ρ ε : Type} (sleep : Duration → σ → σ) (f : Func σ ρ ε)
    (c : Context σ ε) (depth : Nat) (r : Retryer σ ρ ε) (s : σ) (hF : r.F = some f)
    (hC : r.Ctx = some c) (hroom : r.togo ≤ depth) :
    (Run sleep depth r s).fault = none ∧ (Run sleep depth r s).ret ≠ none := by
  obtain ⟨k, hk, _, hend⟩ := Run_shape sleep f c depth r s hF hC
  have h := RunEnds_of_room sleep f c depth r s k hk hroom hend
  exact ⟨h.1, by rw [h.2]; simp⟩

/-- Number of invocations of an always failing operation under a context that
never reports cancellation, when the stack has room for the whole budget. -/
theorem calls_always_failing {σ ρ ε : Type} (sleep : Duration → σ → σ) (f : Func σ ρ ε)
    (c : Context σ ε) (depth : Nat) (r : Retryer σ ρ ε) (s : σ) (hF : r.F = some f)
    (hC : r.Ctx = some c) (hroom : r.togo ≤ depth) (hfail : ∀ t, (f t).1.2 ≠ none)
    (hlive : ∀ t, (c.Err t).1 = none) :
    calls (Run sleep depth r s).trace = r.togo + 1 := by
  have hrun := Run_ends_stop sleep f c r.togo depth r s hF hC (Nat.le_refl _) hroom
    (fun i _ => ⟨hfail _, hlive _⟩) (hfail _) (Or.inr rfl)
  have hc := calls_retriedTrace sleep f c r.Delay r.togo s
  rw [hrun]
  unfold calls at hc ⊢
  simp [List.countP_append, hc, List.countP_cons, Event.isCall]

/-- An always failing operation under a context that never reports
cancellation, with a budget for which the stack has no room: the run makes
one invocation in each activation that fits and ends by a stack overflow. -/
theorem overflow_always_failing {σ ρ ε : Type} (sleep : Duration → σ → σ) (f : Func σ ρ ε)
    (c : Context σ ε) (depth : Nat) (r : Retryer σ ρ ε) (s : σ) (hF : r.F = some f)
    (hC : r.Ctx = some c) (hroom : depth < r.togo) (hfail : ∀ t, (f t).1.2 ≠ none)
    (hlive : ∀ t, (c.Err t).1 = none) :
    (Run sleep depth r s).fault = some Fault.stackOverflow ∧
      (Run sleep depth r s).ret = none ∧
      calls (Run sleep depth r s).trace = depth + 1 := by
  have hrun := Run_ends_overflow sleep f c depth r s hF hC hroom
    (fun i _ => ⟨hfail _, hlive _⟩)
  rw [hrun]
  exact ⟨rfl, rfl, calls_retriedTrace sleep f c r.Delay (depth + 1) s⟩

/-! ## Activations, sleeps and the loop -/

theorem RunFrames_nilF {σ ρ ε : Type} (sleep : Duration → σ → σ) (depth : Nat)
    (r : Retryer σ ρ ε) (s : σ) (hF : r.F = none) : RunFrames sleep depth r s = [r] := by
  rw [RunFrames]; simp [hF]

theorem RunFrames_success {σ ρ ε : Type} (sleep : Duration → σ → σ) (depth : Nat)
    (r : Retryer σ ρ ε) (s : σ) (f : Func σ ρ ε) (hF : r.F = some f)
    (hok : (f s).1.2 = none) :
    RunFrames sleep depth r s = [r] := by
  rw [RunFrames]; simp [hF, hok]

theorem RunFrames_nilCtx {σ ρ ε : Type} (sleep : Duration → σ → σ) (depth : Nat)
    (r : Retryer σ ρ ε) (s : σ) (f : Func σ ρ ε) (hF : r.F = some f) (hC : r.Ctx = none) :
    RunFrames sleep depth r s = [r] := by
  rw [RunFrames]; simp [hF, hC]

theorem RunFrames_stop {σ ρ ε : Type} (sleep : Duration → σ → σ) (depth : Nat)
    (r : Retryer σ ρ ε) (s : σ) (f : Func σ ρ ε) (c : Context σ ε) (hF : r.F = some f)
    (hC : r.Ctx = some c) (hstop : (c.Err (f s).2).1 ≠ none ∨ r.ran = r.Max) :
    RunFrames sleep depth r s = [r] := by
  rw [RunFrames]
  simp only [hF, hC, Option.isSome_iff_ne_none, ne_eq]
  by_cases hc : (c.Err (f s).2).1 = none
  · have hm : r.ran = r.Max := hstop.resolve_left (fun h => h hc)
    simp [hc, hm]
  · simp [hc]

theorem RunFrames_overflow {σ ρ ε : Type} (sleep : Duration → σ → σ)
    (r : Retryer σ ρ ε) (s : σ) : RunFrames sleep 0 r s = [r] := by
  rw [RunFrames]
  cases r.F <;> cases r.Ctx <;> simp

theorem RunFrames_retry {σ ρ ε : Type} (sleep : Duration → σ → σ) (below : Nat)
    (r : Retryer σ ρ ε) (s : σ) (f : Func σ ρ ε) (c : Context σ ε) (hF : r.F = some f)
    (hC : r.Ctx = some c) (hfail : (f s).1.2 ≠ none) (hlive : (c.Err (f s).2).1 = none)
    (hne : ¬ r.ran = r.Max) :
    RunFrames sleep (below + 1) r s =
      r :: RunFrames sleep below { r with ran := GoInt.inc r.ran }
        (delayState sleep r.Delay (c.Err (f s).2).2) := by
  rw [RunFrames]
  simp [hF, hC, Option.isSome_iff_ne_none, hfail, hlive, hne]

theorem GoInt.ofInt_val (x : GoInt) : GoInt.ofInt x.val = x := by
  have h := x.property
  unfold InRange at h
  apply Subtype.ext
  simp only [GoInt.ofInt, wrapInt]
  omega

theorem GoInt.ofInt_inc_add (x : GoInt) (i : Nat) :
    GoInt.ofInt ((GoInt.inc x).val + (i : Int)) = GoInt.ofInt (x.val + ((i + 1 : Nat) : Int)) := by
  apply Subtype.ext
  simp only [GoInt.ofInt, GoInt.inc, wrapInt]
  omega

theorem frames_single {σ ρ ε : Type} (r : Retryer σ ρ ε) :
    (List.range 1).map (fun i => { r with ran := GoInt.ofInt (r.ran.val + (i : Int)) }) =
      [r] := by
  cases r
  simp [List.range_succ, GoInt.ofInt_val]

theorem calls_after {σ ρ ε : Type} (out : ρ × Option ε) (e : Option ε)
    (delay : Option (σ → Duration)) (t : σ) (o : Outcome σ ρ ε) :
    calls (Outcome.after ([Event.call out, Event.sample e] ++ delayEvents delay t)
      o).trace = calls o.trace + 1 := by
  cases delay <;>
    simp [calls, Outcome.after, delayEvents, List.countP_cons, List.countP_append,
      Event.isCall]

/-- The receiver of activation number `i + 1` of a run that starts with `r`:
only the counter differs, advanced `i` times. There is one activation for
each invocation of the operation. -/
theorem RunFrames_eq {σ ρ ε : Type} (sleep : Duration → σ → σ) (f : Func σ ρ ε)
    (c : Context σ ε) (depth : Nat) :
    ∀ (r : Retryer σ ρ ε) (s : σ), r.F = some f → r.Ctx = some c →
      RunFrames sleep depth r s =
        (List.range (calls (Run sleep depth r s).trace)).map
          (fun i => { r with ran := GoInt.ofInt (r.ran.val + (i : Int)) }) := by
  have hone : ∀ (depth : Nat) (r : Retryer σ ρ ε) (s : σ), r.F = some f → r.Ctx = some c →
      ((f s).1.2 = none ∨ (c.Err (f s).2).1 ≠ none ∨ r.ran = r.Max) →
      RunFrames sleep depth r s =
        (List.range (calls (Run sleep depth r s).trace)).map
          (fun i => { r with ran := GoInt.ofInt (r.ran.val + (i : Int)) }) := by
    intro depth r s hF hC h
    by_cases hok : (f s).1.2 = none
    · rw [RunFrames_success sleep depth r s f hF hok, Run_success sleep depth r s f hF hok]
      simp only [calls, List.countP_cons, List.countP_nil, Event.isCall]
      exact (frames_single r).symm
    · have hstop : (c.Err (f s).2).1 ≠ none ∨ r.ran = r.Max := by
        rcases h with h | h | h
        · exact absurd h hok
        · exact Or.inl h
        · exact Or.inr h
      rw [RunFrames_stop sleep depth r s f c hF hC hstop,
        Run_stop sleep depth r s f c hF hC hok hstop]
      simp only [calls, List.countP_cons, List.countP_nil, Event.isCall]
      exact (frames_single r).symm
  induction depth with
  | zero =>
    intro r s hF hC
    by_cases hgo : (f s).1.2 = none ∨ (c.Err (f s).2).1 ≠ none ∨ r.ran = r.Max
    · exact hone 0 r s hF hC hgo
    · have hok : (f s).1.2 ≠ none := fun h => hgo (Or.inl h)
      have hlive : (c.Err (f s).2).1 = none := by
        by_contra h
        exact hgo (Or.inr (Or.inl h))
      have hne : ¬ r.ran = r.Max := fun h => hgo (Or.inr (Or.inr h))
      rw [RunFrames_overflow, Run_overflow sleep r s f c hF hC hok hlive hne]
      have hc : calls ([Event.call (f s).1, Event.sample (c.Err (f s).2).1] ++
          delayEvents r.Delay (c.Err (f s).2).2 : List (Event ρ ε)) = 1 := by
        cases r.Delay <;>
          simp [calls, delayEvents, List.countP_cons, Event.isCall]
      simp only [hc]
      exact (frames_single r).symm
  | succ depth ih =>
    intro r s hF hC
    by_cases hgo : (f s).1.2 = none ∨ (c.Err (f s).2).1 ≠ none ∨ r.ran = r.Max
    · exact hone (depth + 1) r s hF hC hgo
    · have hok : (f s).1.2 ≠ none := fun h => hgo (Or.inl h)
      have hlive : (c.Err (f s).2).1 = none := by
        by_contra h
        exact hgo (Or.inr (Or.inl h))
      have hne : ¬ r.ran = r.Max := fun h => hgo (Or.inr (Or.inr h))
      have h := ih { r with ran := GoInt.inc r.ran }
        (delayState sleep r.Delay (c.Err (f s).2).2) hF hC
      rw [RunFrames_retry sleep depth r s f c hF hC hok hlive hne,
        Run_retry sleep depth r s f c hF hC hok hlive hne, h, calls_after,
        List.range_succ_eq_map]
      simp only [List.map_cons, List.map_map]
      congr 1
      · simp [GoInt.ofInt_val]
      · apply List.map_congr_left
        intro i _
        simp only [Function.comp]
        rw [GoInt.ofInt_inc_add]

/-- One activation of `Run` for each invocation of the operation. -/
theorem RunFrames_length {σ ρ ε : Type} (sleep : Duration → σ → σ) (f : Func σ ρ ε)
    (c : Context σ ε) (depth : Nat) (r : Retryer σ ρ ε) (s : σ) (hF : r.F = some f)
    (hC : r.Ctx = some c) :
    (RunFrames sleep depth r s).length = calls (Run sleep depth r s).trace := by
  rw [RunFrames_eq sleep f c depth r s hF hC]
  simp

theorem frames_fresh {σ ρ ε : Type} (sleep : Duration → σ → σ) (f : Func σ ρ ε)
    (c : Context σ ε) (delay : Option (σ → Duration)) (max : GoInt) (depth : Nat) (s : σ) :
    RunFrames sleep depth (fresh c f max delay) s =
      (List.range (calls (Run sleep depth (fresh c f max delay) s).trace)).map
        (fun i => { fresh c f max delay with ran := GoInt.ofInt (i : Int) }) := by
  rw [RunFrames_eq sleep f c depth (fresh c f max delay) s rfl rfl]
  apply List.map_congr_left
  intro i _
  simp [fresh, GoInt.zero]

theorem ran_val_frame {σ ρ ε : Type} (r : Retryer σ ρ ε) (x : GoInt) :
    ({ r with ran := x } : Retryer σ ρ ε).ran.val = x.val := rfl

theorem Max_val_frame {σ ρ ε : Type} (c : Context σ ε) (f : Func σ ρ ε) (max : GoInt)
    (delay : Option (σ → Duration)) (x : GoInt) :
    ({ fresh c f max delay with ran := x } : Retryer σ ρ ε).Max = max := rfl

theorem sleeps_nil_of_no_delay {σ ρ ε : Type} (sleep : Duration → σ → σ) (depth : Nat)
    (r : Retryer σ ρ ε) (f : Func σ ρ ε) (c : Context σ ε) (s : σ) (hF : r.F = some f)
    (hC : r.Ctx = some c) (hD : r.Delay = none) :
    sleeps (Run sleep depth r s).trace = [] := by
  obtain ⟨k, _, _, hend⟩ := Run_shape sleep f c depth r s hF hC
  have hs := sleeps_retriedTrace_none (ρ := ρ) sleep f c k s
  unfold RunEnds at hend
  rw [hD] at hend
  unfold sleeps at hs ⊢
  rcases hend with ⟨_, _, hrun⟩ | ⟨_, _, _, hrun⟩ | ⟨_, hrun⟩ <;>
    · rw [hrun]
      simp [List.filterMap_append, List.filterMap_cons, Event.sleepOf, hs]

theorem sleepOf_call {ρ ε : Type} (out : ρ × Option ε) :
    Event.sleepOf (Event.call out : Event ρ ε) = none := rfl

theorem sleepOf_sample {ρ ε : Type} (e : Option ε) :
    Event.sleepOf (Event.sample e : Event ρ ε) = none := rfl

theorem sleepOf_sleep {ρ ε : Type} (d : Duration) :
    Event.sleepOf (Event.sleep d : Event ρ ε) = some d := rfl

theorem calls_withoutSleeps {ρ ε : Type} (t : List (Event ρ ε)) :
    calls (withoutSleeps t) = calls t := by
  induction t with
  | nil => rfl
  | cons e t ih =>
    unfold calls withoutSleeps at ih ⊢
    cases e <;>
      simp [List.filter_cons, List.countP_cons, sleepOf_call, sleepOf_sample, sleepOf_sleep,
        Event.isCall, ih]

theorem samples_withoutSleeps {ρ ε : Type} (t : List (Event ρ ε)) :
    samples (withoutSleeps t) = samples t := by
  induction t with
  | nil => rfl
  | cons e t ih =>
    unfold samples withoutSleeps at ih ⊢
    cases e <;>
      simp [List.filter_cons, List.countP_cons, sleepOf_call, sleepOf_sample, sleepOf_sleep,
        Event.isSample, ih]

theorem view_delayState {σ τ : Type} (sleep : Duration → σ → σ) (view : σ → τ)
    (hsleep : ∀ d s, view (sleep d s) = view s) (delay : Option (σ → Duration)) (s : σ) :
    view (delayState sleep delay s) = view s := by
  cases delay <;> simp [delayState, hsleep]

theorem withoutSleeps_step {σ ρ ε : Type} (out : ρ × Option ε) (e : Option ε)
    (delay : Option (σ → Duration)) (t : σ) (tl : List (Event ρ ε)) :
    withoutSleeps ([Event.call out, Event.sample e] ++ delayEvents delay t ++ tl) =
      Event.call out :: Event.sample e :: withoutSleeps tl := by
  cases delay <;>
    simp [withoutSleeps, delayEvents, List.filter_cons, sleepOf_call, sleepOf_sample,
      sleepOf_sleep]

/-- Two runs that differ only in the delay, started in worlds that differ only
in what sleeping changes, go through the same invocations and samples. -/
theorem Run_delay_irrelevant {σ ρ ε τ : Type} (sleep : Duration → σ → σ) (f : Func σ ρ ε)
    (c : Context σ ε) (view : σ → τ)
    (hsleep : ∀ d s, view (sleep d s) = view s)
    (hf : ∀ s t, view s = view t → (f s).1 = (f t).1 ∧ view (f s).2 = view (f t).2)
    (hc : ∀ s t, view s = view t →
      (c.Err s).1 = (c.Err t).1 ∧ view (c.Err s).2 = view (c.Err t).2)
    (depth : Nat) :
    ∀ (r1 r2 : Retryer σ ρ ε) (s1 s2 : σ), r1.F = some f → r2.F = some f →
      r1.Ctx = some c → r2.Ctx = some c → r1.Max = r2.Max → r1.ran = r2.ran →
      view s1 = view s2 →
      (Run sleep depth r1 s1).ret = (Run sleep depth r2 s2).ret ∧
        (Run sleep depth r1 s1).fault = (Run sleep depth r2 s2).fault ∧
        withoutSleeps (Run sleep depth r1 s1).trace =
          withoutSleeps (Run sleep depth r2 s2).trace ∧
        view (Run sleep depth r1 s1).state = view (Run sleep depth r2 s2).state := by
  have hone : ∀ (depth : Nat) (r1 r2 : Retryer σ ρ ε) (s1 s2 : σ), r1.F = some f →
      r2.F = some f → r1.Ctx = some c → r2.Ctx = some c → r1.Max = r2.Max →
      r1.ran = r2.ran → view s1 = view s2 →
      ((f s1).1.2 = none ∨ (c.Err (f s1).2).1 ≠ none ∨ r1.ran = r1.Max) →
      (Run sleep depth r1 s1).ret = (Run sleep depth r2 s2).ret ∧
        (Run sleep depth r1 s1).fault = (Run sleep depth r2 s2).fault ∧
        withoutSleeps (Run sleep depth r1 s1).trace =
          withoutSleeps (Run sleep depth r2 s2).trace ∧
        view (Run sleep depth r1 s1).state = view (Run sleep depth r2 s2).state := by
    intro depth r1 r2 s1 s2 hF1 hF2 hC1 hC2 hM hr hv h
    obtain ⟨hout, hv1⟩ := hf s1 s2 hv
    obtain ⟨hce, hv2⟩ := hc _ _ hv1
    by_cases hok : (f s1).1.2 = none
    · have hok2 : (f s2).1.2 = none := by rw [← hout]; exact hok
      rw [Run_success sleep depth r1 s1 f hF1 hok, Run_success sleep depth r2 s2 f hF2 hok2]
      simp [withoutSleeps, List.filter_cons, sleepOf_call, hout, hv1]
    · have hok2 : (f s2).1.2 ≠ none := by rw [← hout]; exact hok
      have hstop1 : (c.Err (f s1).2).1 ≠ none ∨ r1.ran = r1.Max := by
        rcases h with h | h | h
        · exact absurd h hok
        · exact Or.inl h
        · exact Or.inr h
      have hstop2 : (c.Err (f s2).2).1 ≠ none ∨ r2.ran = r2.Max := by
        rw [← hce, ← hr, ← hM]; exact hstop1
      rw [Run_stop sleep depth r1 s1 f c hF1 hC1 hok hstop1,
        Run_stop sleep depth r2 s2 f c hF2 hC2 hok2 hstop2]
      simp [withoutSleeps, List.filter_cons, sleepOf_call, sleepOf_sample, hout, hce, hv2]
  induction depth with
  | zero =>
    intro r1 r2 s1 s2 hF1 hF2 hC1 hC2 hM hr hv
    by_cases hgo : (f s1).1.2 = none ∨ (c.Err (f s1).2).1 ≠ none ∨ r1.ran = r1.Max
    · exact hone 0 r1 r2 s1 s2 hF1 hF2 hC1 hC2 hM hr hv hgo
    · obtain ⟨hout, hv1⟩ := hf s1 s2 hv
      obtain ⟨hce, hv2⟩ := hc _ _ hv1
      have hok : (f s1).1.2 ≠ none := fun h => hgo (Or.inl h)
      have hlive : (c.Err (f s1).2).1 = none := by
        by_contra h
        exact hgo (Or.inr (Or.inl h))
      have hne1 : ¬ r1.ran = r1.Max := fun h => hgo (Or.inr (Or.inr h))
      have hok2 : (f s2).1.2 ≠ none := by rw [← hout]; exact hok
      have hlive2 : (c.Err (f s2).2).1 = none := by rw [← hce]; exact hlive
      have hne2 : ¬ r2.ran = r2.Max := by rw [← hr, ← hM]; exact hne1
      rw [Run_overflow sleep r1 s1 f c hF1 hC1 hok hlive hne1,
        Run_overflow sleep r2 s2 f c hF2 hC2 hok2 hlive2 hne2]
      refine ⟨rfl, rfl, ?_, ?_⟩
      · have h1 := withoutSleeps_step (f s1).1 (c.Err (f s1).2).1 r1.Delay
          (c.Err (f s1).2).2 ([] : List (Event ρ ε))
        have h2 := withoutSleeps_step (f s2).1 (c.Err (f s2).2).1 r2.Delay
          (c.Err (f s2).2).2 ([] : List (Event ρ ε))
        rw [List.append_nil] at h1 h2
        simp only []
        rw [h1, h2, hout, hce]
      · simp only []
        rw [view_delayState sleep view hsleep, view_delayState sleep view hsleep]
        exact hv2
  | succ depth ih =>
    intro r1 r2 s1 s2 hF1 hF2 hC1 hC2 hM hr hv
    by_cases hgo : (f s1).1.2 = none ∨ (c.Err (f s1).2).1 ≠ none ∨ r1.ran = r1.Max
    · exact hone (depth + 1) r1 r2 s1 s2 hF1 hF2 hC1 hC2 hM hr hv hgo
    · obtain ⟨hout, hv1⟩ := hf s1 s2 hv
      obtain ⟨hce, hv2⟩ := hc _ _ hv1
      have hok : (f s1).1.2 ≠ none := fun h => hgo (Or.inl h)
      have hlive : (c.Err (f s1).2).1 = none := by
        by_contra h
        exact hgo (Or.inr (Or.inl h))
      have hne1 : ¬ r1.ran = r1.Max := fun h => hgo (Or.inr (Or.inr h))
      have hok2 : (f s2).1.2 ≠ none := by rw [← hout]; exact hok
      have hlive2 : (c.Err (f s2).2).1 = none := by rw [← hce]; exact hlive
      have hne2 : ¬ r2.ran = r2.Max := by rw [← hr, ← hM]; exact hne1
      have hrec := ih { r1 with ran := GoInt.inc r1.ran } { r2 with ran := GoInt.inc r2.ran }
        (delayState sleep r1.Delay (c.Err (f s1).2).2)
        (delayState sleep r2.Delay (c.Err (f s2).2).2) hF1 hF2 hC1 hC2 hM
        (congrArg GoInt.inc hr)
        (by rw [view_delayState sleep view hsleep, view_delayState sleep view hsleep]
            exact hv2)
      rw [Run_retry sleep depth r1 s1 f c hF1 hC1 hok hlive hne1,
        Run_retry sleep depth r2 s2 f c hF2 hC2 hok2 hlive2 hne2]
      refine ⟨hrec.1, hrec.2.1, ?_, hrec.2.2.2⟩
      simp only [Outcome.after]
      rw [withoutSleeps_step, withoutSleeps_step, hrec.2.2.1, hout, hce]

theorem Times_eq_Run {σ ρ ε : Type} (sleep : Duration → σ → σ) (depth : Nat)
    (amount : GoInt) (f : Func σ ρ ε) (s : σ) :
    Times sleep depth amount (some f) s =
      Run sleep depth (fresh (Background σ ε) f amount none) s := rfl

theorem TimesCtx_eq_Run {σ ρ ε : Type} (sleep : Duration → σ → σ) (depth : Nat)
    (c : Context σ ε) (amount : GoInt) (f : Func σ ρ ε) (s : σ) :
    TimesCtx sleep depth (some c) amount (some f) s =
      Run sleep depth (fresh c f amount none) s := rfl

theorem TimesDelayed_eq_Run {σ ρ ε : Type} (sleep : Duration → σ → σ) (depth : Nat)
    (amount : GoInt) (f : Func σ ρ ε) (d : Duration) (s : σ) :
    TimesDelayed sleep depth amount (some f) d s =
      Run sleep depth (fresh (Background σ ε) f amount (fixedDelay d)) s := rfl

theorem togo_tenMillion {σ ρ ε : Type} (c : Context σ ε) (f : Func σ ρ ε)
    (delay : Option (σ → Duration)) :
    (fresh c f GoInt.tenMillion delay : Retryer σ ρ ε).togo = 10000000 := by
  rw [togo_fresh c f GoInt.tenMillion delay (by decide)]
  rfl

theorem observedDepth_lt_tenMillion : observedDepth < 10000000 := by
  unfold observedDepth; omega

theorem observedDepth_succ : observedDepth + 1 = 5592389 := rfl

/-- An always failing operation, run from `ran = 0` with `Max = N ≥ 0` under
a context that never reports cancellation, on a stack with room for `N`
nested calls: exactly `N + 1` invocations, and the pair of the last one is
returned. -/
theorem always_failing_with_room {σ ρ ε : Type} (sleep : Duration → σ → σ) (depth : Nat)
    (f : Func σ ρ ε) (c : Context σ ε) (delay : Option (σ → Duration)) (max : GoInt) (s : σ)
    (hmax : 0 ≤ max.val) (hroom : max.val.toNat ≤ depth) (hfail : ∀ t, (f t).1.2 ≠ none)
    (hlive : ∀ t, (c.Err t).1 = none) :
    (calls (Run sleep depth (fresh c f max delay) s).trace : Int) = max.val + 1 ∧
      (Run sleep depth (fresh c f max delay) s).ret =
        some (attemptOut sleep f c delay max.val.toNat s) ∧
      lastCall (Run sleep depth (fresh c f max delay) s).trace =
        some (attemptOut sleep f c delay max.val.toNat s) ∧
      (attemptOut sleep f c delay max.val.toNat s).2 ≠ none := by
  have htg := togo_fresh (ρ := ρ) c f max delay hmax
  have hrun := Run_ends_stop sleep f c max.val.toNat depth (fresh c f max delay) s rfl rfl
    (by rw [htg]) hroom (fun i _ => ⟨hfail _, hlive _⟩) (hfail _) (Or.inr htg.symm)
  rw [hrun]
  refine ⟨?_, rfl, lastCall_stop _ _ _, hfail _⟩
  have hc := calls_retriedTrace sleep f c delay max.val.toNat s
  unfold calls at hc ⊢
  simp only [fresh, List.countP_append, hc, List.countP_cons, Event.isCall]
  simp
  omega

theorem attemptState_cancelAt (n k : Nat) :
    ∀ (t : Nat) (z : Int), t + k < n →
      attemptState testSleep (cancelAt n) cancelCtx none k ⟨t, false, z⟩ =
        ⟨t + k, false, z⟩ := by
  induction k with
  | zero => intro t z _; rfl
  | succ k ih =>
    intro t z h
    have hne : ¬ t + 1 = n := by omega
    have hstep : nextAttempt testSleep (cancelAt n) cancelCtx none ⟨t, false, z⟩ =
        ⟨t + 1, false, z⟩ := by
      simp [nextAttempt, delayState, cancelAt, cancelCtx, hne]
    rw [attemptState, hstep, ih (t + 1) z (by omega)]
    congr 1
    omega

/-- Cancellation takes priority over the budget, on a stack with room for the
`j - 1` nested calls that come before it. -/
theorem cancellation_beats_budget_with_room {σ ρ ε : Type} (sleep : Duration → σ → σ)
    (depth : Nat) (f : Func σ ρ ε) (c : Context σ ε) (delay : Option (σ → Duration))
    (max : GoInt) (s : σ) (j : Nat) (hmax : 0 ≤ max.val) (hj1 : 1 ≤ j)
    (hj2 : (j : Int) ≤ max.val + 1) (hroom : j - 1 ≤ depth)
    (hfail : ∀ i, i < j → (attemptOut sleep f c delay i s).2 ≠ none)
    (hlive : ∀ i, i < j - 1 → attemptCtx sleep f c delay i s = none)
    (hcancel : attemptCtx sleep f c delay (j - 1) s ≠ none) :
    (Run sleep depth (fresh c f max delay) s).trace =
        retriedTrace sleep f c delay (j - 1) s ++
          [Event.call (attemptOut sleep f c delay (j - 1) s),
            Event.sample (attemptCtx sleep f c delay (j - 1) s)] ∧
      calls (Run sleep depth (fresh c f max delay) s).trace = j ∧
      (Run sleep depth (fresh c f max delay) s).ret =
        some (attemptOut sleep f c delay (j - 1) s) := by
  have htg := togo_fresh (ρ := ρ) c f max delay hmax
  have hrun := Run_ends_stop sleep f c (j - 1) depth (fresh c f max delay) s rfl rfl
    (by rw [htg]; omega) hroom
    (fun i hi => ⟨hfail i (by omega), hlive i hi⟩) (hfail (j - 1) (by omega))
    (Or.inl hcancel)
  rw [hrun]
  have hc := calls_retriedTrace sleep f c delay (j - 1) s
  refine ⟨rfl, ?_, rfl⟩
  unfold calls at hc ⊢
  simp only [fresh, List.countP_append, hc, List.countP_cons, Event.isCall]
  simp
  omega

theorem attemptState_failUntil (n k : Nat) :
    ∀ (t : Nat) (b : Bool) (z : Int),
      attemptState testSleep (failUntil n) (Background TestWorld String) none k ⟨t, b, z⟩ =
        ⟨t + k, b, z⟩ := by
  induction k with
  | zero => intro t b z; rfl
  | succ k ih =>
    intro t b z
    have hstep : nextAttempt testSleep (failUntil n) (Background TestWorld String) none
        ⟨t, b, z⟩ = ⟨t + 1, b, z⟩ := by
      simp [nextAttempt, delayState, failUntil, Background]
    rw [attemptState, hstep, ih (t + 1) b z]
    congr 1
    omega

/-- An operation that fails on its first `k` invocations and succeeds on
invocation `k + 1`, under a context that never reports cancellation, with
`Max ≥ k` and room on the stack for `k` nested calls: `k + 1` invocations,
and the pair of the last one, whose error is nil, is returned. -/
theorem succeeds_after_failures_with_room {σ ρ ε : Type} (sleep : Duration → σ → σ)
    (depth : Nat) (f : Func σ ρ ε) (c : Context σ ε) (delay : Option (σ → Duration))
    (max : GoInt) (s : σ) (k : Nat) (hk : (k : Int) ≤ max.val) (hroom : k ≤ depth)
    (hfail : ∀ i, i < k → (attemptOut sleep f c delay i s).2 ≠ none)
    (hok : (attemptOut sleep f c delay k s).2 = none)
    (hlive : ∀ t, (c.Err t).1 = none) :
    calls (Run sleep depth (fresh c f max delay) s).trace = k + 1 ∧
      (Run sleep depth (fresh c f max delay) s).ret =
        some (attemptOut sleep f c delay k s) ∧
      (Run sleep depth (fresh c f max delay) s).ret.bind Prod.snd = none := by
  have hmax : 0 ≤ max.val := by omega
  have htg := togo_fresh (ρ := ρ) c f max delay hmax
  have hrun := Run_ends_success sleep f c k depth (fresh c f max delay) s rfl rfl
    (by rw [htg]; omega) hroom (fun i hi => ⟨hfail i hi, hlive _⟩) hok
  rw [hrun]
  have hc := calls_retriedTrace sleep f c delay k s
  refine ⟨?_, rfl, by simpa using hok⟩
  unfold calls at hc ⊢
  simp only [fresh, List.countP_append, hc, List.countP_cons, Event.isCall]
  simp

/-- A call `r.Run()` leaves the Retryer of the caller as it was, and on a
stack with room for `Max` nested calls a second `r.Run()` has the whole
budget again: for an always failing operation under a never cancelled context
the two runs make `2 * (Max + 1)` invocations together. -/
theorem two_runs_with_room {σ ρ ε : Type} (sleep : Duration → σ → σ) (depth : Nat)
    (f : Func σ ρ ε) (c : Context σ ε) (delay : Option (σ → Duration)) (max : GoInt) (s : σ)
    (hmax : 0 ≤ max.val) (hroom : max.val.toNat ≤ depth) (hfail : ∀ t, (f t).1.2 ≠ none)
    (hlive : ∀ t, (c.Err t).1 = none) :
    (callRunTwice sleep depth (fresh c f max delay) s).1 = fresh c f max delay ∧
      ∃ second, (callRunTwice sleep depth (fresh c f max delay) s).2.2 = some second ∧
        (calls (callRunTwice sleep depth (fresh c f max delay) s).2.1.trace : Int) +
          (calls second.trace : Int) = 2 * (max.val + 1) := by
  have htg := togo_fresh (ρ := ρ) c f max delay hmax
  have hret := (returns_of_room sleep f c depth (fresh c f max delay) s rfl rfl
    (by rw [htg]; exact hroom)).1
  have h1 := calls_always_failing sleep f c depth (fresh c f max delay) s rfl rfl
    (by rw [htg]; exact hroom) hfail hlive
  have h2 := calls_always_failing sleep f c depth (fresh c f max delay)
    (Run sleep depth (fresh c f max delay) s).state rfl rfl
    (by rw [htg]; exact hroom) hfail hlive
  simp only [callRunTwice, callRun, hret]
  refine ⟨trivial, _, rfl, ?_⟩
  omega

/-- A first run that does not return ends the program: the second call is not
made. -/
theorem callRunTwice_of_fault {σ ρ ε : Type} (sleep : Duration → σ → σ) (depth : Nat)
    (r : Retryer σ ρ ε) (s : σ) (x : Fault) (hfault : (Run sleep depth r s).fault = some x) :
    callRunTwice sleep depth r s = (r, Run sleep depth r s, none) := by
  simp only [callRunTwice, callRun, hfault]

theorem togo_doublingRetryer : doublingRetryer.togo = 3 := by
  simp [Retryer.togo, doublingRetryer, GoInt.three, GoInt.zero]

theorem runLoop_success {σ ρ ε : Type} (sleep : Duration → σ → σ) (f : Func σ ρ ε)
    (c : Context σ ε) (delay : Option (σ → Duration)) (n : Nat) (s : σ)
    (hok : (f s).1.2 = none) :
    runLoop sleep f c delay n s = ⟨some (f s).1, none, (f s).2, [Event.call (f s).1]⟩ := by
  cases n <;> simp [runLoop, hok]

theorem runLoop_stop {σ ρ ε : Type} (sleep : Duration → σ → σ) (f : Func σ ρ ε)
    (c : Context σ ε) (delay : Option (σ → Duration)) (n : Nat) (s : σ)
    (hfail : (f s).1.2 ≠ none) (hstop : (c.Err (f s).2).1 ≠ none ∨ n = 0) :
    runLoop sleep f c delay n s =
      ⟨some (f s).1, none, (c.Err (f s).2).2,
        [Event.call (f s).1, Event.sample (c.Err (f s).2).1]⟩ := by
  cases n with
  | zero => simp [runLoop, Option.isSome_iff_ne_none, hfail]
  | succ n =>
    have hc : (c.Err (f s).2).1 ≠ none := hstop.resolve_right (Nat.succ_ne_zero n)
    simp [runLoop, Option.isSome_iff_ne_none, hfail, hc]

theorem runLoop_retry {σ ρ ε : Type} (sleep : Duration → σ → σ) (f : Func σ ρ ε)
    (c : Context σ ε) (delay : Option (σ → Duration)) (n : Nat) (s : σ)
    (hfail : (f s).1.2 ≠ none) (hlive : (c.Err (f s).2).1 = none) :
    runLoop sleep f c delay (n + 1) s =
      Outcome.after
        ([Event.call (f s).1, Event.sample (c.Err (f s).2).1] ++
          delayEvents delay (c.Err (f s).2).2)
        (runLoop sleep f c delay n (delayState sleep delay (c.Err (f s).2).2)) := by
  simp [runLoop, Option.isSome_iff_ne_none, hfail, hlive]

/-- The loop executes its step at most `n + 1` times. -/
theorem calls_runLoop {σ ρ ε : Type} (sleep : Duration → σ → σ) (f : Func σ ρ ε)
    (c : Context σ ε) (delay : Option (σ → Duration)) (n : Nat) :
    ∀ s, calls (runLoop sleep f c delay n s).trace ≤ n + 1 := by
  induction n with
  | zero =>
    intro s
    by_cases hok : (f s).1.2 = none
    · rw [runLoop_success sleep f c delay 0 s hok]
      simp [calls, Event.isCall]
    · rw [runLoop_stop sleep f c delay 0 s hok (Or.inr rfl)]
      simp [calls, Event.isCall, List.countP_cons]
  | succ n ih =>
    intro s
    by_cases hok : (f s).1.2 = none
    · rw [runLoop_success sleep f c delay (n + 1) s hok]
      simp [calls, Event.isCall]
    by_cases hlive : (c.Err (f s).2).1 = none
    · rw [runLoop_retry sleep f c delay n s hok hlive, calls_after]
      have := ih (delayState sleep delay (c.Err (f s).2).2)
      omega
    · rw [runLoop_stop sleep f c delay (n + 1) s hok (Or.inl hlive)]
      simp [calls, Event.isCall, List.countP_cons]

/-- A run of the recursive `Run` that does not overflow the stack has the
outcome of the loop. -/
theorem Run_eq_runLoop {σ ρ ε : Type} (sleep : Duration → σ → σ) (f : Func σ ρ ε)
    (c : Context σ ε) (depth : Nat) :
    ∀ (r : Retryer σ ρ ε) (s : σ), r.F = some f → r.Ctx = some c →
      (Run sleep depth r s).fault = none →
      Run sleep depth r s = runLoop sleep f c r.Delay r.togo s := by
  have hone : ∀ (depth : Nat) (r : Retryer σ ρ ε) (s : σ), r.F = some f → r.Ctx = some c →
      ((f s).1.2 = none ∨ (c.Err (f s).2).1 ≠ none ∨ r.ran = r.Max) →
      Run sleep depth r s = runLoop sleep f c r.Delay r.togo s := by
    intro depth r s hF hC h
    by_cases hok : (f s).1.2 = none
    · rw [Run_success sleep depth r s f hF hok, runLoop_success sleep f c r.Delay _ s hok]
    · have hstop : (c.Err (f s).2).1 ≠ none ∨ r.ran = r.Max := by
        rcases h with h | h | h
        · exact absurd h hok
        · exact Or.inl h
        · exact Or.inr h
      have hstop2 : (c.Err (f s).2).1 ≠ none ∨ r.togo = 0 := by
        rcases hstop with h | h
        · exact Or.inl h
        · exact Or.inr ((togo_zero_iff r).mpr h)
      rw [Run_stop sleep depth r s f c hF hC hok hstop,
        runLoop_stop sleep f c r.Delay _ s hok hstop2]
  induction depth with
  | zero =>
    intro r s hF hC hret
    by_cases hgo : (f s).1.2 = none ∨ (c.Err (f s).2).1 ≠ none ∨ r.ran = r.Max
    · exact hone 0 r s hF hC hgo
    · have hok : (f s).1.2 ≠ none := fun h => hgo (Or.inl h)
      have hlive : (c.Err (f s).2).1 = none := by
        by_contra h
        exact hgo (Or.inr (Or.inl h))
      have hne : ¬ r.ran = r.Max := fun h => hgo (Or.inr (Or.inr h))
      rw [Run_overflow sleep r s f c hF hC hok hlive hne] at hret
      simp at hret
  | succ depth ih =>
    intro r s hF hC hret
    by_cases hgo : (f s).1.2 = none ∨ (c.Err (f s).2).1 ≠ none ∨ r.ran = r.Max
    · exact hone (depth + 1) r s hF hC hgo
    · have hok : (f s).1.2 ≠ none := fun h => hgo (Or.inl h)
      have hlive : (c.Err (f s).2).1 = none := by
        by_contra h
        exact hgo (Or.inr (Or.inl h))
      have hne : ¬ r.ran = r.Max := fun h => hgo (Or.inr (Or.inr h))
      have htg := togo_inc r hne
      rw [Run_retry sleep depth r s f c hF hC hok hlive hne] at hret ⊢
      have hinner := ih { r with ran := GoInt.inc r.ran }
        (delayState sleep r.Delay (c.Err (f s).2).2) hF hC hret
      rw [hinner, ← htg, runLoop_retry sleep f c r.Delay _ s hok hlive]

theorem togo_fresh_neg {σ ρ ε : Type} (c : Context σ ε) (f : Func σ ρ ε) (max : GoInt)
    (delay : Option (σ → Duration)) (hmax : max.val < 0) :
    ((fresh c f max delay : Retryer σ ρ ε).togo : Int) = 18446744073709551616 + max.val := by
  have h2 := max.property
  unfold InRange at h2
  simp only [Retryer.togo, fresh, GoInt.zero]
  omega

theorem TimesDelayedCtx_eq_Run {σ ρ ε : Type} (sleep : Duration → σ → σ) (depth : Nat)
    (c : Context σ ε) (amount : GoInt) (f : Func σ ρ ε) (d : Duration) (s : σ) :
    TimesDelayedCtx sleep depth (some c) amount (some f) d s =
      Run sleep depth (fresh c f amount (fixedDelay d)) s := rfl

/-! ## The claims -/

/-- C1, the code at `Times(10000000, f)` with the always failing `f` of the
tests: the 5592389 activations of `Run` for which the stack has room make one
invocation each, and the next nested call aborts the program with a stack
overflow. Nothing is returned, and the 10000001 invocations of the claim are
not made. -/
theorem always_failing_overflows_the_stack :
    (Times testSleep observedDepth GoInt.tenMillion (some alwaysFail)
        TestWorld.start).fault = some Fault.stackOverflow ∧
      (Times testSleep observedDepth GoInt.tenMillion (some alwaysFail)
        TestWorld.start).ret = none ∧
      calls (Times testSleep observedDepth GoInt.tenMillion (some alwaysFail)
        TestWorld.start).trace = 5592389 := by
  rw [Times_eq_Run]
  have h := overflow_always_failing testSleep alwaysFail (Background TestWorld String)
    observedDepth (fresh (Background TestWorld String) alwaysFail GoInt.tenMillion none)
    TestWorld.start rfl rfl
    (by rw [togo_tenMillion]; exact observedDepth_lt_tenMillion)
    (fun t => by simp [alwaysFail]) (fun t => by simp [Background])
  rw [observedDepth_succ] at h
  exact h

/-- C2, the code at `TimesDelayed(10000000, f, 1)` with the always failing `f`
of the tests: the run does not return, it ends by a stack overflow; the
number of invocations made until then is within the bound. -/
theorem failing_run_does_not_return :
    (TimesDelayed testSleep observedDepth GoInt.tenMillion (some alwaysFail) 1
        TestWorld.start).ret = none ∧
      (TimesDelayed testSleep observedDepth GoInt.tenMillion (some alwaysFail) 1
        TestWorld.start).fault = some Fault.stackOverflow ∧
      1 ≤ calls (TimesDelayed testSleep observedDepth GoInt.tenMillion (some alwaysFail) 1
        TestWorld.start).trace ∧
      (calls (TimesDelayed testSleep observedDepth GoInt.tenMillion (some alwaysFail) 1
        TestWorld.start).trace : Int) ≤ GoInt.tenMillion.val + 1 := by
  rw [TimesDelayed_eq_Run]
  have h := overflow_always_failing testSleep alwaysFail (Background TestWorld String)
    observedDepth
    (fresh (Background TestWorld String) alwaysFail GoInt.tenMillion (fixedDelay 1))
    TestWorld.start rfl rfl
    (by rw [togo_tenMillion]; exact observedDepth_lt_tenMillion)
    (fun t => by simp [alwaysFail]) (fun t => by simp [Background])
  rw [observedDepth_succ] at h
  refine ⟨h.2.1, h.1, ?_, ?_⟩
  · rw [h.2.2]; decide
  · rw [h.2.2]; decide

/-- C3: whatever the operation, context, delay, `Max` and `ran`, a run that
returns, returns exactly the pair produced by the last invocation of the
operation, on every exit path: the returned error is nil exactly when that
invocation returned nil, and when the run stops because the context reports
an error the returned error is still the one of the operation. A run returns
whenever the stack has room for the nested calls that the budget allows, and
the only other ending is a stack overflow. -/
theorem returns_last_invocation {σ ρ ε : Type} (sleep : Duration → σ → σ) (depth : Nat)
    (r : Retryer σ ρ ε) (f : Func σ ρ ε) (c : Context σ ε) (s : σ)
    (hF : r.F = some f) (hC : r.Ctx = some c) :
    ∃ out : ρ × Option ε,
      lastCall (Run sleep depth r s).trace = some out ∧
      (((Run sleep depth r s).ret = some out ∧ (Run sleep depth r s).fault = none ∧
          ((Run sleep depth r s).ret.bind Prod.snd = none ↔ out.2 = none)) ∨
        ((Run sleep depth r s).ret = none ∧
          (Run sleep depth r s).fault = some Fault.stackOverflow ∧ depth < r.togo)) ∧
      (r.togo ≤ depth → (Run sleep depth r s).ret = some out) ∧
      (∀ e, (Run sleep depth r s).trace.getLast? = some (Event.sample (some e)) →
        (Run sleep depth r s).ret.bind Prod.snd = out.2 ∧ out.2 ≠ none) := by
  obtain ⟨k, hk, hall, hend⟩ := Run_shape sleep f c depth r s hF hC
  rcases hend with ⟨_, hok, hrun⟩ | ⟨_, hfail, _, hrun⟩ | ⟨hkd, hrun⟩
  · refine ⟨attemptOut sleep f c r.Delay k s, ?_, ?_, ?_, ?_⟩
    · rw [hrun]; exact lastCall_success _ _
    · left
      rw [hrun]
      exact ⟨rfl, rfl, by simp⟩
    · intro _
      rw [hrun]
    · intro e he
      rw [hrun] at he
      simp at he
  · refine ⟨attemptOut sleep f c r.Delay k s, ?_, ?_, ?_, ?_⟩
    · rw [hrun]; exact lastCall_stop _ _ _
    · left
      rw [hrun]
      exact ⟨rfl, rfl, by simp⟩
    · intro _
      rw [hrun]
    · intro e _
      rw [hrun]
      exact ⟨by simp, hfail⟩
  · subst hkd
    refine ⟨attemptOut sleep f c r.Delay depth s, ?_, ?_, ?_, ?_⟩
    · rw [hrun]; exact lastCall_overflow sleep f c r.Delay depth s
    · right
      rw [hrun]
      exact ⟨rfl, rfl, by omega⟩
    · intro hroom
      omega
    · intro e he
      rw [hrun, retriedTrace_succ] at he
      have hlive := (hall depth (Nat.lt_succ_self depth)).2
      rw [hlive] at he
      cases hD : r.Delay with
      | none =>
        rw [hD] at he
        simp [delayEvents] at he
      | some p =>
        rw [hD] at he
        simp [delayEvents] at he

/-- Witness of C3: TestOnceCtx_StopsIfContextCancelled. -/
theorem returns_last_invocation_witness :
    ∃ out : String × Option String,
      lastCall (Run testSleep observedDepth (fresh cancelCtx cancelAndFail GoInt.one none)
        TestWorld.start).trace = some out ∧
      (((Run testSleep observedDepth (fresh cancelCtx cancelAndFail GoInt.one none)
          TestWorld.start).ret = some out ∧
          (Run testSleep observedDepth (fresh cancelCtx cancelAndFail GoInt.one none)
            TestWorld.start).fault = none ∧
          ((Run testSleep observedDepth (fresh cancelCtx cancelAndFail GoInt.one none)
            TestWorld.start).ret.bind Prod.snd = none ↔ out.2 = none)) ∨
        ((Run testSleep observedDepth (fresh cancelCtx cancelAndFail GoInt.one none)
          TestWorld.start).ret = none ∧
          (Run testSleep observedDepth (fresh cancelCtx cancelAndFail GoInt.one none)
            TestWorld.start).fault = some Fault.stackOverflow ∧
          observedDepth < (fresh cancelCtx cancelAndFail GoInt.one none).togo)) ∧
      ((fresh cancelCtx cancelAndFail GoInt.one none).togo ≤ observedDepth →
        (Run testSleep observedDepth (fresh cancelCtx cancelAndFail GoInt.one none)
          TestWorld.start).ret = some out) ∧
      (∀ e, (Run testSleep observedDepth (fresh cancelCtx cancelAndFail GoInt.one none)
          TestWorld.start).trace.getLast? = some (Event.sample (some e)) →
        (Run testSleep observedDepth (fresh cancelCtx cancelAndFail GoInt.one none)
          TestWorld.start).ret.bind Prod.snd = out.2 ∧ out.2 ≠ none) :=
  returns_last_invocation testSleep observedDepth
    (fresh cancelCtx cancelAndFail GoInt.one none) cancelAndFail cancelCtx TestWorld.start
    rfl rfl

/-- C4: an operation that always succeeds is invoked exactly once, whatever
`Max`, `ran`, the context (even a nil one), the delay and the room on the
stack: the trace of the run is that single invocation, so there is no sleep
and no sample of the context, and `Run` returns the result and the nil error
of that first invocation. -/
theorem always_succeeding_runs_once {σ ρ ε : Type} (sleep : Duration → σ → σ)
    (depth : Nat) (r : Retryer σ ρ ε) (f : Func σ ρ ε) (s : σ)
    (hF : r.F = some f) (hok : ∀ t, (f t).1.2 = none) :
    (Run sleep depth r s).trace = [Event.call (f s).1] ∧
      calls (Run sleep depth r s).trace = 1 ∧
      samples (Run sleep depth r s).trace = 0 ∧
      sleeps (Run sleep depth r s).trace = [] ∧
      (Run sleep depth r s).ret = some (f s).1 ∧
      (Run sleep depth r s).ret.bind Prod.snd = none ∧
      (Run sleep depth r s).fault = none ∧
      (Run sleep depth r s).state = (f s).2 := by
  rw [Run_success sleep depth r s f hF (hok s)]
  simp [calls, samples, sleeps, Event.isCall, Event.isSample, Event.sleepOf, hok s]

/-- Witness of C4: TestTimes_ReturnsIfSuccessful, `Max = 3`. -/
theorem always_succeeding_runs_once_witness :
    (Run testSleep observedDepth (fresh cancelCtx alwaysOk GoInt.three (fixedDelay 7))
        TestWorld.start).trace = [Event.call (alwaysOk TestWorld.start).1] ∧
      calls (Run testSleep observedDepth (fresh cancelCtx alwaysOk GoInt.three (fixedDelay 7))
        TestWorld.start).trace = 1 ∧
      samples (Run testSleep observedDepth
        (fresh cancelCtx alwaysOk GoInt.three (fixedDelay 7)) TestWorld.start).trace = 0 ∧
      sleeps (Run testSleep observedDepth
        (fresh cancelCtx alwaysOk GoInt.three (fixedDelay 7)) TestWorld.start).trace = [] ∧
      (Run testSleep observedDepth (fresh cancelCtx alwaysOk GoInt.three (fixedDelay 7))
        TestWorld.start).ret = some (alwaysOk TestWorld.start).1 ∧
      (Run testSleep observedDepth (fresh cancelCtx alwaysOk GoInt.three (fixedDelay 7))
        TestWorld.start).ret.bind Prod.snd = none ∧
      (Run testSleep observedDepth (fresh cancelCtx alwaysOk GoInt.three (fixedDelay 7))
        TestWorld.start).fault = none ∧
      (Run testSleep observedDepth (fresh cancelCtx alwaysOk GoInt.three (fixedDelay 7))
        TestWorld.start).state = (alwaysOk TestWorld.start).2 :=
  always_succeeding_runs_once testSleep observedDepth
    (fresh cancelCtx alwaysOk GoInt.three (fixedDelay 7)) alwaysOk TestWorld.start rfl
    (fun t => by simp [alwaysOk])

/-- C5, the code at `TimesCtx(ctx, 10000000, f)` where `f` always fails and
calls `cancel()` in its invocation number 6000000: the stack overflows after
5592389 invocations, before the cancellation, so the 6000000 invocations and
the return of the claim do not happen. -/
theorem late_cancellation_is_not_reached :
    (TimesCtx testSleep observedDepth (some cancelCtx) GoInt.tenMillion
        (some (cancelAt 6000000)) TestWorld.start).fault = some Fault.stackOverflow ∧
      (TimesCtx testSleep observedDepth (some cancelCtx) GoInt.tenMillion
        (some (cancelAt 6000000)) TestWorld.start).ret = none ∧
      calls (TimesCtx testSleep observedDepth (some cancelCtx) GoInt.tenMillion
        (some (cancelAt 6000000)) TestWorld.start).trace = 5592389 := by
  rw [TimesCtx_eq_Run]
  have hall : ∀ i, i < observedDepth + 1 →
      (attemptOut testSleep (cancelAt 6000000) cancelCtx none i TestWorld.start).2 ≠ none ∧
        attemptCtx testSleep (cancelAt 6000000) cancelCtx none i TestWorld.start = none := by
    intro i hi
    rw [observedDepth_succ] at hi
    have hst := attemptState_cancelAt 6000000 i 0 0 (by omega)
    have hne : ¬ i + 1 = 6000000 := by omega
    unfold attemptOut attemptCtx
    rw [TestWorld.start, hst]
    simp [cancelAt, cancelCtx, hne]
  have hrun := Run_ends_overflow testSleep (cancelAt 6000000) cancelCtx observedDepth
    (fresh cancelCtx (cancelAt 6000000) GoInt.tenMillion none) TestWorld.start rfl rfl
    (by rw [togo_tenMillion]; exact observedDepth_lt_tenMillion) hall
  rw [hrun]
  refine ⟨rfl, rfl, ?_⟩
  have hc := calls_retriedTrace (ρ := String) testSleep (cancelAt 6000000) cancelCtx none
    (observedDepth + 1) TestWorld.start
  rw [observedDepth_succ] at hc
  exact hc

/-- C6, the code at `Times(10000000, f)` where `f` fails on its first 6000000
invocations and then succeeds: the stack overflows after 5592389 invocations,
all of them failures, so the success of invocation 6000001 is not reached and
nothing is returned. -/
theorem late_success_is_not_reached :
    (Times testSleep observedDepth GoInt.tenMillion (some (failUntil 6000000))
        TestWorld.start).fault = some Fault.stackOverflow ∧
      (Times testSleep observedDepth GoInt.tenMillion (some (failUntil 6000000))
        TestWorld.start).ret = none ∧
      calls (Times testSleep observedDepth GoInt.tenMillion (some (failUntil 6000000))
        TestWorld.start).trace = 5592389 := by
  rw [Times_eq_Run]
  have hall : ∀ i, i < observedDepth + 1 →
      (attemptOut testSleep (failUntil 6000000) (Background TestWorld String) none i
          TestWorld.start).2 ≠ none ∧
        attemptCtx testSleep (failUntil 6000000) (Background TestWorld String) none i
          TestWorld.start = none := by
    intro i hi
    rw [observedDepth_succ] at hi
    have hst := attemptState_failUntil 6000000 i 0 false 0
    have hlt : i < 6000000 := by omega
    unfold attemptOut attemptCtx
    rw [TestWorld.start, hst]
    simp [failUntil, Background, hlt]
  have hrun := Run_ends_overflow testSleep (failUntil 6000000)
    (Background TestWorld String) observedDepth
    (fresh (Background TestWorld String) (failUntil 6000000) GoInt.tenMillion none)
    TestWorld.start rfl rfl
    (by rw [togo_tenMillion]; exact observedDepth_lt_tenMillion) hall
  rw [hrun]
  refine ⟨rfl, rfl, ?_⟩
  have hc := calls_retriedTrace (ρ := String) testSleep (failUntil 6000000)
    (Background TestWorld String) none (observedDepth + 1) TestWorld.start
  rw [observedDepth_succ] at hc
  exact hc

/-- C7, as amended: in a run that returns, the invocations and the sleeps
alternate as invocation, sleep, invocation, ..., invocation: one sleep between
each pair of consecutive invocations, none before the first and none after
the last, so `m` invocations come with `m - 1` sleeps. Each sleep lasts what
`*r.Delay` holds when the sleep starts; when the pointee is `D` throughout,
each sleep is `D` and the total is `(m - 1) * D`. Hence an always failing
operation under `Max = 1`, a delay that stays `D` and a never cancelled
context gives two invocations and one sleep of `D`. With no delay configured
there is no sleep at all. -/
theorem delay_between_attempts_only {σ ρ ε : Type} (sleep : Duration → σ → σ)
    (depth : Nat) (r : Retryer σ ρ ε) (f : Func σ ρ ε) (c : Context σ ε) (s : σ)
    (hF : r.F = some f) (hC : r.Ctx = some c)
    (hret : (Run sleep depth r s).fault = none) :
    (∀ p, r.Delay = some p →
        (callsAndSleeps (Run sleep depth r s).trace).map Option.isSome =
          List.intersperse true
            (List.replicate (calls (Run sleep depth r s).trace) false) ∧
        sleeps (Run sleep depth r s).trace =
          List.map (fun i : Nat => p (sampledState sleep f c (some p) i s))
            (List.range (calls (Run sleep depth r s).trace - 1)) ∧
        (∀ d, (∀ t, p t = d) →
          callsAndSleeps (Run sleep depth r s).trace =
            List.intersperse (some d)
              (List.replicate (calls (Run sleep depth r s).trace) none) ∧
          sleeps (Run sleep depth r s).trace =
            List.replicate (calls (Run sleep depth r s).trace - 1) d ∧
          (sleeps (Run sleep depth r s).trace).sum =
            ((calls (Run sleep depth r s).trace : Int) - 1) * d)) ∧
      (r.Delay = none → sleeps (Run sleep depth r s).trace = []) ∧
      (∀ d, r.Delay = fixedDelay d → r.Max = GoInt.one → r.ran = GoInt.zero →
        (∀ t, (f t).1.2 ≠ none) → (∀ t, (c.Err t).1 = none) →
        calls (Run sleep depth r s).trace = 2 ∧ sleeps (Run sleep depth r s).trace = [d] ∧
          (sleeps (Run sleep depth r s).trace).sum = d) := by
  obtain ⟨k, hk, hall, hend⟩ := Run_shape sleep f c depth r s hF hC
  have hcalls : calls (Run sleep depth r s).trace = k + 1 := by
    rcases calls_of_RunEnds sleep f c depth r s k hend with ⟨_, h⟩ | ⟨h, _⟩
    · exact h
    · simp [hret] at h
  have hsl : sleeps (Run sleep depth r s).trace =
      sleeps (retriedTrace sleep f c r.Delay k s : List (Event ρ ε)) := by
    rcases hend with ⟨_, _, hrun⟩ | ⟨_, _, _, hrun⟩ | ⟨_, hrun⟩
    · rw [hrun]
      simp [sleeps, List.filterMap_append, List.filterMap_cons, Event.sleepOf]
    · rw [hrun]
      simp [sleeps, List.filterMap_append, List.filterMap_cons, Event.sleepOf]
    · rw [hrun]
  have hshape : ∃ tl : List (Event ρ ε), callsAndSleeps tl = [none] ∧
      (Run sleep depth r s).trace = retriedTrace sleep f c r.Delay k s ++ tl := by
    rcases hend with ⟨_, _, hrun⟩ | ⟨_, _, _, hrun⟩ | ⟨_, hrun⟩
    · exact ⟨[Event.call (attemptOut sleep f c r.Delay k s)], by simp [callsAndSleeps],
        by rw [hrun]⟩
    · exact ⟨[Event.call (attemptOut sleep f c r.Delay k s),
          Event.sample (attemptCtx sleep f c r.Delay k s)], by simp [callsAndSleeps],
        by rw [hrun]⟩
    · simp [hrun] at hret
  obtain ⟨tl, htl, htrace⟩ := hshape
  have hgen : ∀ p, r.Delay = some p → ∀ d, (∀ t, p t = d) →
      callsAndSleeps (Run sleep depth r s).trace =
          List.intersperse (some d)
            (List.replicate (calls (Run sleep depth r s).trace) none) ∧
        sleeps (Run sleep depth r s).trace =
          List.replicate (calls (Run sleep depth r s).trace - 1) d ∧
        (sleeps (Run sleep depth r s).trace).sum =
          ((calls (Run sleep depth r s).trace : Int) - 1) * d := by
    intro p hp d hd
    have hs : sleeps (Run sleep depth r s).trace = List.replicate k d := by
      rw [hsl, hp]
      exact sleeps_retriedTrace_fixed sleep f c p d k s (fun i _ => hd _)
    refine ⟨?_, ?_, ?_⟩
    · rw [hcalls, htrace, hp]
      exact callsAndSleeps_retriedTrace sleep f c p d tl htl k s (fun i _ => hd _)
    · rw [hs, hcalls]; simp
    · rw [hs, hcalls]; simp
  refine ⟨?_, ?_, ?_⟩
  · intro p hp
    refine ⟨?_, ?_, hgen p hp⟩
    · rw [hcalls, htrace, hp]
      exact sleepPlaces_retriedTrace sleep f c p tl htl k s
    · rw [hsl, hp, hcalls]
      exact sleeps_retriedTrace_some sleep f c p k s
  · intro hd
    rw [hsl, hd]
    exact sleeps_retriedTrace_none sleep f c k s
  · intro d hd hM hr hfail hlive
    have htg : r.togo = 1 := by
      simp [Retryer.togo, hM, hr, GoInt.one, GoInt.zero]
    have hk1 : k = 1 := by
      rcases hend with ⟨_, hok, _⟩ | ⟨_, _, hstop, _⟩ | ⟨_, hrun⟩
      · exact absurd hok (hfail _)
      · rcases hstop with h | h
        · exact absurd (hlive _) h
        · omega
      · simp [hrun] at hret
    have h2 : calls (Run sleep depth r s).trace = 2 := by rw [hcalls, hk1]
    have h3 := (hgen (fun _ => d) hd d (fun _ => rfl)).2.1
    rw [h2] at h3
    rw [h3]
    simp [h2]

/-- Witness of C7: TestOnceDelayed, `Max = 1` and a delay of one second. -/
theorem delay_between_attempts_only_witness :
    (Run testSleep observedDepth (fresh (Background TestWorld String) alwaysFail GoInt.one
        (fixedDelay 1000000000)) TestWorld.start).fault = none ∧
      calls (Run testSleep observedDepth (fresh (Background TestWorld String) alwaysFail
        GoInt.one (fixedDelay 1000000000)) TestWorld.start).trace = 2 ∧
      sleeps (Run testSleep observedDepth (fresh (Background TestWorld String) alwaysFail
        GoInt.one (fixedDelay 1000000000)) TestWorld.start).trace = [1000000000] ∧
      (sleeps (Run testSleep observedDepth (fresh (Background TestWorld String) alwaysFail
        GoInt.one (fixedDelay 1000000000)) TestWorld.start).trace).sum = 1000000000 :=
  have hret : (Run testSleep observedDepth (fresh (Background TestWorld String) alwaysFail
      GoInt.one (fixedDelay 1000000000)) TestWorld.start).fault = none :=
    (returns_of_room testSleep alwaysFail (Background TestWorld String) observedDepth
      (fresh (Background TestWorld String) alwaysFail GoInt.one (fixedDelay 1000000000))
      TestWorld.start rfl rfl
      (by rw [togo_fresh _ _ _ _ (by decide)]; unfold observedDepth; decide)).1
  ⟨hret,
    (delay_between_attempts_only testSleep observedDepth
      (fresh (Background TestWorld String) alwaysFail GoInt.one (fixedDelay 1000000000))
      alwaysFail (Background TestWorld String) TestWorld.start rfl rfl hret).2.2
      1000000000 rfl rfl rfl (fun t => by simp [alwaysFail]) (fun t => by simp [Background])⟩

/-- Counterexample to C7 as stated: `d := 5`, a Retryer with `Max = 3` and
`Delay = &d`, and an operation that doubles `d` and fails. The four
invocations are separated by sleeps of 10, 20 and 40, not by three sleeps of
the 5 that was configured. -/
theorem sleeps_follow_the_pointee :
    calls (Run idleSleep observedDepth doublingRetryer 5).trace = 4 ∧
      (Run idleSleep observedDepth doublingRetryer 5).fault = none ∧
      sleeps (Run idleSleep observedDepth doublingRetryer 5).trace = [10, 20, 40] ∧
      sleeps (Run idleSleep observedDepth doublingRetryer 5).trace ≠ List.replicate 3 5 := by
  have hrun := Run_ends_stop idleSleep doubleAndFail (Background Int String) 3
    observedDepth doublingRetryer 5 rfl rfl (by rw [togo_doublingRetryer])
    (by unfold observedDepth; omega)
    (fun i _ => ⟨by simp [attemptOut, doubleAndFail], by simp [attemptCtx, Background]⟩)
    (by simp [attemptOut, doubleAndFail]) (Or.inr togo_doublingRetryer.symm)
  have hs : sleeps (Run idleSleep observedDepth doublingRetryer 5).trace = [10, 20, 40] := by
    rw [hrun]
    simp [sleeps, doublingRetryer, retriedTrace, nextAttempt, delayState, delayEvents,
      doubleAndFail, Background, idleSleep, Event.sleepOf, List.filterMap_cons]
  refine ⟨?_, ?_, hs, ?_⟩
  · rw [hrun]
    have hc := calls_retriedTrace (ρ := String) idleSleep doubleAndFail
      (Background Int String) doublingRetryer.Delay 3 5
    unfold calls at hc ⊢
    simp [List.countP_append, hc, List.countP_cons, Event.isCall]
  · rw [hrun]
  · rw [hs]
    decide

/-- C8: with `Max = 0` a run started from `ran = 0` invokes the operation
exactly once, whether it succeeds or fails and whatever the context, the
delay setting and the room on the stack; it does not sleep and returns the
pair of that invocation. -/
theorem max_zero_runs_once {σ ρ ε : Type} (sleep : Duration → σ → σ) (depth : Nat)
    (f : Func σ ρ ε) (c : Context σ ε) (delay : Option (σ → Duration)) (s : σ) :
    calls (Run sleep depth (fresh c f GoInt.zero delay) s).trace = 1 ∧
      sleeps (Run sleep depth (fresh c f GoInt.zero delay) s).trace = [] ∧
      (Run sleep depth (fresh c f GoInt.zero delay) s).ret = some (f s).1 ∧
      (Run sleep depth (fresh c f GoInt.zero delay) s).fault = none := by
  by_cases hok : (f s).1.2 = none
  · rw [Run_success sleep depth (fresh c f GoInt.zero delay) s f rfl hok]
    simp [calls, sleeps, Event.isCall, Event.sleepOf]
  · rw [Run_stop sleep depth (fresh c f GoInt.zero delay) s f c rfl rfl hok (Or.inr rfl)]
    simp [calls, sleeps, Event.isCall, Event.sleepOf, List.countP_cons]

/-- C9: under a context that is already cancelled (it reports an error
whenever it is sampled) the operation is still invoked exactly once, for every
`Max`, `ran`, delay setting and room on the stack: a successful invocation is
returned with its nil error and the context is not even sampled, a failed one
is returned with its result and error and is not retried. -/
theorem cancelled_context_runs_once {σ ρ ε : Type} (sleep : Duration → σ → σ)
    (depth : Nat) (r : Retryer σ ρ ε) (f : Func σ ρ ε) (c : Context σ ε) (s : σ)
    (hF : r.F = some f) (hC : r.Ctx = some c) (hcancelled : ∀ t, (c.Err t).1 ≠ none) :
    calls (Run sleep depth r s).trace = 1 ∧
      sleeps (Run sleep depth r s).trace = [] ∧
      (Run sleep depth r s).ret = some (f s).1 ∧
      (Run sleep depth r s).fault = none ∧
      ((f s).1.2 = none →
        (Run sleep depth r s).ret.bind Prod.snd = none ∧
          (Run sleep depth r s).trace = [Event.call (f s).1]) ∧
      ((f s).1.2 ≠ none →
        (Run sleep depth r s).ret.bind Prod.snd = (f s).1.2 ∧
          (Run sleep depth r s).trace =
            [Event.call (f s).1, Event.sample (c.Err (f s).2).1]) := by
  by_cases hok : (f s).1.2 = none
  · rw [Run_success sleep depth r s f hF hok]
    simp [calls, sleeps, Event.isCall, Event.sleepOf, hok]
  · rw [Run_stop sleep depth r s f c hF hC hok (Or.inl (hcancelled _))]
    simp [calls, sleeps, Event.isCall, Event.sleepOf, List.countP_cons, hok]

/-- Witness of C9: a context that always reports an error, `Max = 3`. -/
theorem cancelled_context_runs_once_witness :
    calls (Run testSleep observedDepth
        (fresh (⟨fun w => (some "context canceled", w)⟩ : Context TestWorld String)
          alwaysFail GoInt.three (fixedDelay 2)) TestWorld.start).trace = 1 ∧
      sleeps (Run testSleep observedDepth
        (fresh (⟨fun w => (some "context canceled", w)⟩ : Context TestWorld String)
          alwaysFail GoInt.three (fixedDelay 2)) TestWorld.start).trace = [] ∧
      (Run testSleep observedDepth
        (fresh (⟨fun w => (some "context canceled", w)⟩ : Context TestWorld String)
          alwaysFail GoInt.three (fixedDelay 2)) TestWorld.start).ret =
        some (alwaysFail TestWorld.start).1 ∧
      (Run testSleep observedDepth
        (fresh (⟨fun w => (some "context canceled", w)⟩ : Context TestWorld String)
          alwaysFail GoInt.three (fixedDelay 2)) TestWorld.start).fault = none ∧
      ((alwaysFail TestWorld.start).1.2 = none →
        (Run testSleep observedDepth
          (fresh (⟨fun w => (some "context canceled", w)⟩ : Context TestWorld String)
            alwaysFail GoInt.three (fixedDelay 2)) TestWorld.start).ret.bind Prod.snd =
              none ∧
          (Run testSleep observedDepth
            (fresh (⟨fun w => (some "context canceled", w)⟩ : Context TestWorld String)
              alwaysFail GoInt.three (fixedDelay 2)) TestWorld.start).trace =
            [Event.call (alwaysFail TestWorld.start).1]) ∧
      ((alwaysFail TestWorld.start).1.2 ≠ none →
        (Run testSleep observedDepth
          (fresh (⟨fun w => (some "context canceled", w)⟩ : Context TestWorld String)
            alwaysFail GoInt.three (fixedDelay 2)) TestWorld.start).ret.bind Prod.snd =
              (alwaysFail TestWorld.start).1.2 ∧
          (Run testSleep observedDepth
            (fresh (⟨fun w => (some "context canceled", w)⟩ : Context TestWorld String)
              alwaysFail GoInt.three (fixedDelay 2)) TestWorld.start).trace =
            [Event.call (alwaysFail TestWorld.start).1,
              Event.sample ((⟨fun w => (some "context canceled", w)⟩ :
                Context TestWorld String).Err (alwaysFail TestWorld.start).2).1]) :=
  cancelled_context_runs_once testSleep observedDepth
    (fresh (⟨fun w => (some "context canceled", w)⟩ : Context TestWorld String)
      alwaysFail GoInt.three (fixedDelay 2))
    alwaysFail ⟨fun w => (some "context canceled", w)⟩ TestWorld.start rfl rfl
    (fun t => by simp)

/-- C10: in every run the context is sampled exactly once immediately after
each invocation that returned a non-nil error (also the one at which the
budget is used up), before any sleep, and at no other point: not before the
first invocation, not after a successful invocation, not after a sleep. The
number of samples equals the number of failed invocations. -/
theorem sampled_after_each_failure {σ ρ ε : Type} (sleep : Duration → σ → σ)
    (depth : Nat) (r : Retryer σ ρ ε) (f : Func σ ρ ε) (c : Context σ ε) (s : σ)
    (hF : r.F = some f) (hC : r.Ctx = some c) :
    sampledAfterFailures (Run sleep depth r s).trace = true ∧
      samples (Run sleep depth r s).trace = failedCalls (Run sleep depth r s).trace ∧
      (Run sleep depth r s).trace.head? = some (Event.call (f s).1) := by
  obtain ⟨k, _, hall, hend⟩ := Run_shape sleep f c depth r s hF hC
  have hs := samples_retriedTrace sleep f c r.Delay k s
  have hfc := failedCalls_retriedTrace sleep f c r.Delay k s (fun i hi => (hall i hi).1)
  have hsf := fun tl => sampledAfterFailures_retriedTrace sleep f c r.Delay tl k s
    (fun i hi => (hall i hi).1)
  have hhead : ∀ tl : List (Event ρ ε),
      (k = 0 → tl.head? = some (Event.call (attemptOut sleep f c r.Delay k s))) →
      (retriedTrace sleep f c r.Delay k s ++ tl).head? = some (Event.call (f s).1) := by
    intro tl htl
    cases k with
    | zero => simpa [retriedTrace, attemptOut, attemptState] using htl rfl
    | succ k => simp [retriedTrace]
  unfold samples at hs ⊢
  unfold failedCalls at hfc ⊢
  rcases hend with ⟨_, hok, hrun⟩ | ⟨_, hfail, _, hrun⟩ | ⟨hkd, hrun⟩
  · rw [hrun]
    refine ⟨?_, ?_, hhead _ (fun _ => by simp)⟩
    · simp only []
      rw [hsf]
      simp [sampledAfterFailures, hok]
    · simp [List.countP_append, List.countP_cons, hs, hfc, Event.isSample,
        Event.isFailedCall, hok]
  · rw [hrun]
    have hsome : ((attemptOut sleep f c r.Delay k s).2).isSome = true :=
      Option.isSome_iff_ne_none.mpr hfail
    refine ⟨?_, ?_, hhead _ (fun _ => by simp)⟩
    · simp only []
      rw [hsf]
      simp [sampledAfterFailures, hsome]
    · simp [List.countP_append, List.countP_cons, hs, hfc, Event.isSample,
        Event.isFailedCall, hsome]
  · rw [hrun]
    have h1 := hsf []
    have h2 := hhead [] (fun h0 => by omega)
    rw [List.append_nil] at h1 h2
    refine ⟨?_, ?_, h2⟩
    · simp only []
      rw [h1]
      simp [sampledAfterFailures]
    · simp only []
      rw [hs, hfc]

/-- Witness of C10: the failing operation under `Max = 3` with a delay. -/
theorem sampled_after_each_failure_witness :
    sampledAfterFailures (Run testSleep observedDepth
        (fresh cancelCtx alwaysFail GoInt.three (fixedDelay 9)) TestWorld.start).trace =
        true ∧
      samples (Run testSleep observedDepth
        (fresh cancelCtx alwaysFail GoInt.three (fixedDelay 9)) TestWorld.start).trace =
        failedCalls (Run testSleep observedDepth
          (fresh cancelCtx alwaysFail GoInt.three (fixedDelay 9)) TestWorld.start).trace ∧
      (Run testSleep observedDepth (fresh cancelCtx alwaysFail GoInt.three (fixedDelay 9))
        TestWorld.start).trace.head? = some (Event.call (alwaysFail TestWorld.start).1) :=
  sampled_after_each_failure testSleep observedDepth
    (fresh cancelCtx alwaysFail GoInt.three (fixedDelay 9)) alwaysFail cancelCtx
    TestWorld.start rfl rfl

/-- C11: each of the eight entry points of retry.go is `Run` on a Retryer
built fresh with the parameters of its row in the table of the specification
(`Max` 1 or the amount, the delay of the caller or none, the context of the
caller or the background context, which never reports cancellation). So each
`Once` function is the `Times` function with amount 1, and each function
without a context is its `Ctx` counterpart at the background context, with
the same returned pair, final world and trace. -/
theorem entry_points_follow_table {σ ρ ε : Type} (sleep : Duration → σ → σ) (depth : Nat)
    (ctx : Option (Context σ ε)) (amount : GoInt) (f : Option (Func σ ρ ε)) (d : Duration)
    (s : σ) :
    (∀ e : EntryPoint,
        e.inSource sleep depth ctx amount f d s = e.byTable sleep depth ctx amount f d s) ∧
      (∀ t : σ, (Background σ ε).Err t = (none, t)) ∧
      Once sleep depth f s = Times sleep depth GoInt.one f s ∧
      OnceCtx sleep depth ctx f s = TimesCtx sleep depth ctx GoInt.one f s ∧
      OnceDelayed sleep depth f d s = TimesDelayed sleep depth GoInt.one f d s ∧
      OnceDelayedCtx sleep depth ctx f d s =
        TimesDelayedCtx sleep depth ctx GoInt.one f d s ∧
      Once sleep depth f s = OnceCtx sleep depth (some (Background σ ε)) f s ∧
      OnceDelayed sleep depth f d s =
        OnceDelayedCtx sleep depth (some (Background σ ε)) f d s ∧
      Times sleep depth amount f s =
        TimesCtx sleep depth (some (Background σ ε)) amount f s ∧
      TimesDelayed sleep depth amount f d s =
        TimesDelayedCtx sleep depth (some (Background σ ε)) amount f d s := by
  refine ⟨?_, fun _ => rfl, rfl, rfl, rfl, rfl, rfl, rfl, rfl, rfl⟩
  intro e
  cases e <;> rfl

/-- C12, the code at `r := Retryer{Ctx: context.Background(), F: f, Max:
10000000}` with the always failing `f` of the tests, followed by `r.Run()`
twice: the first run ends by a stack overflow after 5592389 invocations, the
program is aborted and the second run is not made. The variable of the caller
still holds the Retryer it held. -/
theorem second_run_is_not_reached :
    (callRunTwice testSleep observedDepth
        (fresh (Background TestWorld String) alwaysFail GoInt.tenMillion none)
        TestWorld.start).1 =
        fresh (Background TestWorld String) alwaysFail GoInt.tenMillion none ∧
      (callRunTwice testSleep observedDepth
        (fresh (Background TestWorld String) alwaysFail GoInt.tenMillion none)
        TestWorld.start).2.1.fault = some Fault.stackOverflow ∧
      calls (callRunTwice testSleep observedDepth
        (fresh (Background TestWorld String) alwaysFail GoInt.tenMillion none)
        TestWorld.start).2.1.trace = 5592389 ∧
      (callRunTwice testSleep observedDepth
        (fresh (Background TestWorld String) alwaysFail GoInt.tenMillion none)
        TestWorld.start).2.2 = none := by
  have h := overflow_always_failing testSleep alwaysFail (Background TestWorld String)
    observedDepth (fresh (Background TestWorld String) alwaysFail GoInt.tenMillion none)
    TestWorld.start rfl rfl
    (by rw [togo_tenMillion]; exact observedDepth_lt_tenMillion)
    (fun t => by simp [alwaysFail]) (fun t => by simp [Background])
  rw [observedDepth_succ] at h
  rw [callRunTwice_of_fault testSleep observedDepth _ _ Fault.stackOverflow h.1]
  exact ⟨rfl, h.1, h.2.2, rfl⟩

/-- C13: in a run started from `ran = 0` with `Max ≥ 0` there is one
activation of `Run` for each invocation of the operation, and the counter with
which invocation number `k` is made is `k - 1`: the counters are 0, 1, 2, ...
in this order, one more for each attempt that is retried, and the last
attempt, which returns, adds nothing. Every counter lies between 0 and `Max`. -/
theorem counter_counts_retries {σ ρ ε : Type} (sleep : Duration → σ → σ) (depth : Nat)
    (f : Func σ ρ ε) (c : Context σ ε) (delay : Option (σ → Duration)) (max : GoInt) (s : σ)
    (hmax : 0 ≤ max.val) :
    (RunFrames sleep depth (fresh c f max delay) s).length =
        calls (Run sleep depth (fresh c f max delay) s).trace ∧
      (RunFrames sleep depth (fresh c f max delay) s).map (fun q => q.ran.val) =
        List.map (fun k : Nat => (k : Int))
          (List.range (calls (Run sleep depth (fresh c f max delay) s).trace)) ∧
      (∀ q, q ∈ RunFrames sleep depth (fresh c f max delay) s →
        0 ≤ q.ran.val ∧ q.ran.val ≤ q.Max.val ∧ q.Max = max) := by
  have htg := togo_fresh (ρ := ρ) c f max delay hmax
  have hb := (calls_bounds sleep f c depth (fresh c f max delay) s rfl rfl).2.1
  have hmx := max.property
  unfold InRange at hmx
  have hval : ∀ i, i < calls (Run sleep depth (fresh c f max delay) s).trace →
      (GoInt.ofInt (i : Int)).val = (i : Int) := by
    intro i hi
    simp only [GoInt.ofInt, wrapInt]
    omega
  refine ⟨RunFrames_length sleep f c depth _ s rfl rfl, ?_, ?_⟩
  · rw [frames_fresh, List.map_map]
    apply List.map_congr_left
    intro i hi
    rw [Function.comp_apply, ran_val_frame]
    exact hval i (List.mem_range.mp hi)
  · intro q hq
    rw [frames_fresh] at hq
    obtain ⟨i, hi, rfl⟩ := List.mem_map.mp hq
    have hi2 := List.mem_range.mp hi
    have h := hval i hi2
    rw [ran_val_frame, Max_val_frame, h]
    exact ⟨by omega, by omega, rfl⟩

/-- Witness of C13: fails twice then succeeds under `Max = 3`. -/
theorem counter_counts_retries_witness :
    (RunFrames testSleep observedDepth (fresh cancelCtx failTwice GoInt.three none)
        TestWorld.start).length =
        calls (Run testSleep observedDepth (fresh cancelCtx failTwice GoInt.three none)
          TestWorld.start).trace ∧
      (RunFrames testSleep observedDepth (fresh cancelCtx failTwice GoInt.three none)
        TestWorld.start).map (fun q => q.ran.val) =
        List.map (fun k : Nat => (k : Int))
          (List.range (calls (Run testSleep observedDepth
            (fresh cancelCtx failTwice GoInt.three none) TestWorld.start).trace)) ∧
      (∀ q, q ∈ RunFrames testSleep observedDepth
          (fresh cancelCtx failTwice GoInt.three none) TestWorld.start →
        0 ≤ q.ran.val ∧ q.ran.val ≤ q.Max.val ∧ q.Max = GoInt.three) :=
  counter_counts_retries testSleep observedDepth failTwice cancelCtx none GoInt.three
    TestWorld.start (by decide)

/-- C14, as amended: `Run` is a true recursion, each retry is a nested call,
and the number of nested activations of `Run` equals the number of
invocations of the operation. For `Max ≥ 0` and from `ran = 0`, every run that
does not end by a stack overflow, so every run on a stack with room for `Max`
nested calls, has the same outcome (returned pair, final world, sequence of
invocations, samples and sleeps) as the explicit loop that executes the step
at most `Max + 1` times. -/
theorem recursion_is_bounded_loop {σ ρ ε : Type} (sleep : Duration → σ → σ) (depth : Nat)
    (f : Func σ ρ ε) (c : Context σ ε) (delay : Option (σ → Duration)) (max : GoInt) (s : σ)
    (hmax : 0 ≤ max.val) :
    ((Run sleep depth (fresh c f max delay) s).fault = none →
        Run sleep depth (fresh c f max delay) s =
          runLoop sleep f c delay max.val.toNat s) ∧
      (max.val.toNat ≤ depth →
        Run sleep depth (fresh c f max delay) s =
          runLoop sleep f c delay max.val.toNat s) ∧
      (calls (runLoop sleep f c delay max.val.toNat s).trace : Int) ≤ max.val + 1 ∧
      (RunFrames sleep depth (fresh c f max delay) s).length =
        calls (Run sleep depth (fresh c f max delay) s).trace := by
  have htg := togo_fresh (ρ := ρ) c f max delay hmax
  have heq : (Run sleep depth (fresh c f max delay) s).fault = none →
      Run sleep depth (fresh c f max delay) s =
        runLoop sleep f c delay max.val.toNat s := by
    intro hret
    have h := Run_eq_runLoop sleep f c depth (fresh c f max delay) s rfl rfl hret
    rw [htg] at h
    exact h
  refine ⟨heq, ?_, ?_, RunFrames_length sleep f c depth _ s rfl rfl⟩
  · intro hroom
    exact heq (returns_of_room sleep f c depth (fresh c f max delay) s rfl rfl
      (by rw [htg]; exact hroom)).1
  · have hb := calls_runLoop sleep f c delay max.val.toNat s
    omega

/-- Witness of C14: the failing operation under `Max = 3` with a delay. -/
theorem recursion_is_bounded_loop_witness :
    ((Run testSleep observedDepth (fresh cancelCtx alwaysFail GoInt.three (fixedDelay 6))
          TestWorld.start).fault = none →
        Run testSleep observedDepth (fresh cancelCtx alwaysFail GoInt.three (fixedDelay 6))
            TestWorld.start =
          runLoop testSleep alwaysFail cancelCtx (fixedDelay 6) GoInt.three.val.toNat
            TestWorld.start) ∧
      (GoInt.three.val.toNat ≤ observedDepth →
        Run testSleep observedDepth (fresh cancelCtx alwaysFail GoInt.three (fixedDelay 6))
            TestWorld.start =
          runLoop testSleep alwaysFail cancelCtx (fixedDelay 6) GoInt.three.val.toNat
            TestWorld.start) ∧
      (calls (runLoop testSleep alwaysFail cancelCtx (fixedDelay 6) GoInt.three.val.toNat
        TestWorld.start).trace : Int) ≤ GoInt.three.val + 1 ∧
      (RunFrames testSleep observedDepth
        (fresh cancelCtx alwaysFail GoInt.three (fixedDelay 6)) TestWorld.start).length =
        calls (Run testSleep observedDepth
          (fresh cancelCtx alwaysFail GoInt.three (fixedDelay 6)) TestWorld.start).trace :=
  recursion_is_bounded_loop testSleep observedDepth alwaysFail cancelCtx (fixedDelay 6)
    GoInt.three TestWorld.start (by decide)

/-- Counterexample to C14 as stated: the depth of nested calls of `Run` grows
with the number of retries. The always failing operation of the tests gives
one invocation and one activation under `Max = 0`, and four invocations in
four nested activations under `Max = 3`. -/
theorem nesting_grows_with_retries :
    calls (Run testSleep observedDepth
        (fresh (Background TestWorld String) alwaysFail GoInt.zero none)
        TestWorld.start).trace = 1 ∧
      (RunFrames testSleep observedDepth
        (fresh (Background TestWorld String) alwaysFail GoInt.zero none)
        TestWorld.start).length = 1 ∧
      calls (Run testSleep observedDepth
        (fresh (Background TestWorld String) alwaysFail GoInt.three none)
        TestWorld.start).trace = 4 ∧
      (RunFrames testSleep observedDepth
        (fresh (Background TestWorld String) alwaysFail GoInt.three none)
        TestWorld.start).length = 4 := by
  have hfail : ∀ t, (alwaysFail t).1.2 ≠ none := fun t => by simp [alwaysFail]
  have hlive : ∀ t, ((Background TestWorld String).Err t).1 = none := fun t => by
    simp [Background]
  have t0 := togo_fresh (ρ := String) (Background TestWorld String) alwaysFail GoInt.zero
    none (by decide)
  have t3 := togo_fresh (ρ := String) (Background TestWorld String) alwaysFail GoInt.three
    none (by decide)
  have v0 : GoInt.zero.val.toNat = 0 := by decide
  have v3 : GoInt.three.val.toNat = 3 := by decide
  have hd : 3 ≤ observedDepth := by unfold observedDepth; omega
  have h0 := calls_always_failing testSleep alwaysFail (Background TestWorld String)
    observedDepth (fresh (Background TestWorld String) alwaysFail GoInt.zero none)
    TestWorld.start rfl rfl (by omega) hfail hlive
  have h3 := calls_always_failing testSleep alwaysFail (Background TestWorld String)
    observedDepth (fresh (Background TestWorld String) alwaysFail GoInt.three none)
    TestWorld.start rfl rfl (by omega) hfail hlive
  rw [RunFrames_length testSleep alwaysFail (Background TestWorld String) _ _ _ rfl rfl,
    RunFrames_length testSleep alwaysFail (Background TestWorld String) _ _ _ rfl rfl]
  omega

/-- C15, as amended: with a negative `Max` the test `ran == Max` fails for
every counter that the run reaches from 0, so the budget never ends the run
and the bound of `Max + 1` attempts does not hold. An always failing operation
under a never cancelled context is retried in every activation of `Run` for
which the stack has room: the run makes more than `k` invocations for every
`k` up to the number of nested calls that fit, and then it ends by a stack
overflow instead of returning. -/
theorem negative_max_keeps_retrying {σ ρ ε : Type} (sleep : Duration → σ → σ)
    (depth : Nat) (f : Func σ ρ ε) (c : Context σ ε) (delay : Option (σ → Duration))
    (max : GoInt) (s : σ) (hmax : max.val < 0)
    (hdepth : (depth : Int) < 9223372036854775808) (hfail : ∀ t, (f t).1.2 ≠ none)
    (hlive : ∀ t, (c.Err t).1 = none) :
    (Run sleep depth (fresh c f max delay) s).fault = some Fault.stackOverflow ∧
      (Run sleep depth (fresh c f max delay) s).ret = none ∧
      calls (Run sleep depth (fresh c f max delay) s).trace = depth + 1 ∧
      (∀ k : Nat, k ≤ depth → k < calls (Run sleep depth (fresh c f max delay) s).trace) ∧
      ¬ ((calls (Run sleep depth (fresh c f max delay) s).trace : Int) ≤ max.val + 1) ∧
      (∀ q, q ∈ RunFrames sleep depth (fresh c f max delay) s →
        0 ≤ q.ran.val ∧ q.ran ≠ q.Max) := by
  have htg := togo_fresh_neg (ρ := ρ) c f max delay hmax
  have h2 := max.property
  unfold InRange at h2
  have h := overflow_always_failing sleep f c depth (fresh c f max delay) s rfl rfl
    (by omega) hfail hlive
  refine ⟨h.1, h.2.1, h.2.2, fun k hk => by omega, by omega, ?_⟩
  intro q hq
  rw [frames_fresh] at hq
  obtain ⟨i, hi, rfl⟩ := List.mem_map.mp hq
  have hi2 := List.mem_range.mp hi
  have hval : (GoInt.ofInt (i : Int)).val = (i : Int) := by
    simp only [GoInt.ofInt, wrapInt]
    omega
  rw [ran_val_frame, hval]
  refine ⟨by omega, ?_⟩
  intro heq
  have h3 := congrArg Subtype.val heq
  rw [ran_val_frame, Max_val_frame, hval] at h3
  omega

/-- Witness of C15: `Times(-1, f)` with the failing operation of the tests. -/
theorem negative_max_keeps_retrying_witness :
    (Run testSleep observedDepth
        (fresh (Background TestWorld String) alwaysFail GoInt.minusOne none)
        TestWorld.start).fault = some Fault.stackOverflow ∧
      (Run testSleep observedDepth
        (fresh (Background TestWorld String) alwaysFail GoInt.minusOne none)
        TestWorld.start).ret = none ∧
      calls (Run testSleep observedDepth
        (fresh (Background TestWorld String) alwaysFail GoInt.minusOne none)
        TestWorld.start).trace = observedDepth + 1 ∧
      (∀ k : Nat, k ≤ observedDepth →
        k < calls (Run testSleep observedDepth
          (fresh (Background TestWorld String) alwaysFail GoInt.minusOne none)
          TestWorld.start).trace) ∧
      ¬ ((calls (Run testSleep observedDepth
        (fresh (Background TestWorld String) alwaysFail GoInt.minusOne none)
        TestWorld.start).trace : Int) ≤ GoInt.minusOne.val + 1) ∧
      (∀ q, q ∈ RunFrames testSleep observedDepth
          (fresh (Background TestWorld String) alwaysFail GoInt.minusOne none)
          TestWorld.start →
        0 ≤ q.ran.val ∧ q.ran ≠ q.Max) :=
  negative_max_keeps_retrying testSleep observedDepth alwaysFail
    (Background TestWorld String) none GoInt.minusOne TestWorld.start (by decide)
    (by unfold observedDepth; decide) (fun t => by simp [alwaysFail])
    (fun t => by simp [Background])

/-- Counterexample to C15 as stated: `Times(-1, f)` with the always failing `f`
of the tests makes 5592389 invocations and ends by a stack overflow; 5592389
is far below the wrap-around of the counter, and the run does not make more
than 5592389 invocations. -/
theorem negative_max_overflows_the_stack :
    calls (Times testSleep observedDepth GoInt.minusOne (some alwaysFail)
        TestWorld.start).trace = 5592389 ∧
      (Times testSleep observedDepth GoInt.minusOne (some alwaysFail)
        TestWorld.start).fault = some Fault.stackOverflow ∧
      (5592389 : Int) < 9223372036854775808 ∧
      ¬ (5592389 < calls (Times testSleep observedDepth GoInt.minusOne (some alwaysFail)
        TestWorld.start).trace) := by
  rw [Times_eq_Run]
  have htg := togo_fresh_neg (ρ := String) (Background TestWorld String) alwaysFail
    GoInt.minusOne none (by decide)
  have hv : GoInt.minusOne.val = -1 := rfl
  have hd : observedDepth = 5592388 := rfl
  have h := overflow_always_failing testSleep alwaysFail (Background TestWorld String)
    observedDepth (fresh (Background TestWorld String) alwaysFail GoInt.minusOne none)
    TestWorld.start rfl rfl (by omega)
    (fun t => by simp [alwaysFail]) (fun t => by simp [Background])
  rw [observedDepth_succ] at h
  refine ⟨h.2.2, h.1, by decide, ?_⟩
  rw [h.2.2]
  decide

/-- C16, as amended: a Retryer whose `F` is set and whose `Ctx` is nil returns
normally exactly when the first invocation succeeds: then the result comes
back with a nil error and the context is not touched; when the first
invocation fails the run panics on `r.Ctx.Err()` after that one invocation,
without retry. With `F` and `Ctx` both set `Run` never panics on a nil
dereference, and with a nil `Delay` nothing is dereferenced for a sleep and no
sleep is made. -/
theorem nil_context_faults_on_failure {σ ρ ε : Type} (sleep : Duration → σ → σ)
    (depth : Nat) (r : Retryer σ ρ ε) (f : Func σ ρ ε) (s : σ) (hF : r.F = some f)
    (hC : r.Ctx = none) :
    ((Run sleep depth r s).ret ≠ none ↔ (f s).1.2 = none) ∧
      ((f s).1.2 = none →
        Run sleep depth r s = ⟨some (f s).1, none, (f s).2, [Event.call (f s).1]⟩) ∧
      ((f s).1.2 ≠ none →
        Run sleep depth r s =
          ⟨none, some Fault.nilDereference, (f s).2, [Event.call (f s).1]⟩) ∧
      (∀ (c : Context σ ε) (room : Nat) (t : σ),
        (Run sleep room { r with Ctx := some c } t).fault ≠ some Fault.nilDereference) ∧
      (∀ (c : Context σ ε) (room : Nat) (t : σ), r.Delay = none →
        sleeps (Run sleep room { r with Ctx := some c } t).trace = []) := by
  refine ⟨?_, fun hok => Run_success sleep depth r s f hF hok,
    fun hfail => Run_nilCtx sleep depth r s f hF hC hfail, ?_, ?_⟩
  · by_cases hok : (f s).1.2 = none
    · rw [Run_success sleep depth r s f hF hok]
      simp [hok]
    · rw [Run_nilCtx sleep depth r s f hF hC hok]
      simp [hok]
  · intro c room t
    obtain ⟨k, _, _, hend⟩ := Run_shape sleep f c room { r with Ctx := some c } t hF rfl
    rcases hend with ⟨_, _, hrun⟩ | ⟨_, _, _, hrun⟩ | ⟨_, hrun⟩ <;>
      · rw [hrun]
        simp
  · intro c room t hD
    exact sleeps_nil_of_no_delay sleep room { r with Ctx := some c } f c t hF rfl hD

/-- Witness of C16: the failing operation of the tests in a Retryer without context. -/
theorem nil_context_faults_on_failure_witness :
    ((Run testSleep observedDepth failingNoCtx TestWorld.start).ret ≠ none ↔
        (alwaysFail TestWorld.start).1.2 = none) ∧
      ((alwaysFail TestWorld.start).1.2 = none →
        Run testSleep observedDepth failingNoCtx TestWorld.start =
          ⟨some (alwaysFail TestWorld.start).1, none, (alwaysFail TestWorld.start).2,
            [Event.call (alwaysFail TestWorld.start).1]⟩) ∧
      ((alwaysFail TestWorld.start).1.2 ≠ none →
        Run testSleep observedDepth failingNoCtx TestWorld.start =
          ⟨none, some Fault.nilDereference, (alwaysFail TestWorld.start).2,
            [Event.call (alwaysFail TestWorld.start).1]⟩) ∧
      (∀ (c : Context TestWorld String) (room : Nat) (t : TestWorld),
        (Run testSleep room { failingNoCtx with Ctx := some c } t).fault ≠
          some Fault.nilDereference) ∧
      (∀ (c : Context TestWorld String) (room : Nat) (t : TestWorld),
        failingNoCtx.Delay = none →
        sleeps (Run testSleep room { failingNoCtx with Ctx := some c } t).trace = []) :=
  nil_context_faults_on_failure testSleep observedDepth failingNoCtx alwaysFail
    TestWorld.start rfl rfl

/-- Counterexample to C16 as stated: `TimesDelayedCtx(context.Background(),
10000000, f, 1)` with the always failing `f` of the tests has `F` and `Ctx`
set, and the run faults: it ends by a stack overflow and returns nothing. -/
theorem set_context_still_faults :
    (TimesDelayedCtx testSleep observedDepth (some (Background TestWorld String))
        GoInt.tenMillion (some alwaysFail) 1 TestWorld.start).fault =
        some Fault.stackOverflow ∧
      (TimesDelayedCtx testSleep observedDepth (some (Background TestWorld String))
        GoInt.tenMillion (some alwaysFail) 1 TestWorld.start).ret = none := by
  rw [TimesDelayedCtx_eq_Run]
  have h := overflow_always_failing testSleep alwaysFail (Background TestWorld String)
    observedDepth
    (fresh (Background TestWorld String) alwaysFail GoInt.tenMillion (fixedDelay 1))
    TestWorld.start rfl rfl
    (by rw [togo_tenMillion]; exact observedDepth_lt_tenMillion)
    (fun t => by simp [alwaysFail]) (fun t => by simp [Background])
  exact ⟨h.1, h.2.1⟩

/-- C17: the delay changes the sleeps and nothing else. For an operation and a
context that do not depend on elapsed time (what they return and what they do
to the rest of the world is the same in two worlds that differ only in what
sleeping changes), for every `Max` and every delay setting, `Run` with the
delay returns the same pair and makes the same invocations and the same
samples, in the same order, as `Run` without delay; so do
`TimesDelayedCtx(ctx, n, f, d)` and `TimesCtx(ctx, n, f)`. -/
theorem delay_changes_only_sleeps {σ ρ ε τ : Type} (sleep : Duration → σ → σ)
    (depth : Nat) (f : Func σ ρ ε) (c : Context σ ε) (view : σ → τ) (max : GoInt)
    (delay : Option (σ → Duration)) (d : Duration) (s : σ)
    (hsleep : ∀ e t, view (sleep e t) = view t)
    (hf : ∀ t u, view t = view u → (f t).1 = (f u).1 ∧ view (f t).2 = view (f u).2)
    (hc : ∀ t u, view t = view u →
      (c.Err t).1 = (c.Err u).1 ∧ view (c.Err t).2 = view (c.Err u).2) :
    (Run sleep depth (fresh c f max delay) s).ret =
        (Run sleep depth (fresh c f max none) s).ret ∧
      calls (Run sleep depth (fresh c f max delay) s).trace =
        calls (Run sleep depth (fresh c f max none) s).trace ∧
      samples (Run sleep depth (fresh c f max delay) s).trace =
        samples (Run sleep depth (fresh c f max none) s).trace ∧
      withoutSleeps (Run sleep depth (fresh c f max delay) s).trace =
        (Run sleep depth (fresh c f max none) s).trace ∧
      view (Run sleep depth (fresh c f max delay) s).state =
        view (Run sleep depth (fresh c f max none) s).state ∧
      (TimesDelayedCtx sleep depth (some c) max (some f) d s).ret =
        (TimesCtx sleep depth (some c) max (some f) s).ret ∧
      withoutSleeps (TimesDelayedCtx sleep depth (some c) max (some f) d s).trace =
        (TimesCtx sleep depth (some c) max (some f) s).trace := by
  have h := Run_delay_irrelevant sleep f c view hsleep hf hc depth (fresh c f max delay)
    (fresh c f max none) s s rfl rfl rfl rfl rfl rfl rfl
  have h2 := Run_delay_irrelevant sleep f c view hsleep hf hc depth
    (fresh c f max (fixedDelay d)) (fresh c f max none) s s rfl rfl rfl rfl rfl rfl rfl
  have hns : withoutSleeps (Run sleep depth (fresh c f max none) s).trace =
      (Run sleep depth (fresh c f max none) s).trace := by
    have h0 := sleeps_nil_of_no_delay sleep depth (fresh c f max none) f c s rfl rfl rfl
    unfold sleeps at h0
    unfold withoutSleeps
    rw [List.filter_eq_self]
    intro e he
    cases hs : Event.sleepOf e with
    | none => rfl
    | some x =>
      have : x ∈ List.filterMap Event.sleepOf
          (Run sleep depth (fresh c f max none) s).trace :=
        List.mem_filterMap.mpr ⟨e, he, hs⟩
      rw [h0] at this
      simp at this
  have hw := h.2.2.1
  have hw2 := h2.2.2.1
  rw [hns] at hw hw2
  refine ⟨h.1, ?_, ?_, hw, h.2.2.2, h2.1, hw2⟩
  · rw [← calls_withoutSleeps, hw]
  · rw [← samples_withoutSleeps, hw]

/-- Witness of C17: fails twice then succeeds, under the cancellable context
of the tests, `Max = 3` and a delay of 5. -/
theorem delay_changes_only_sleeps_witness :
    (Run testSleep observedDepth (fresh cancelCtx failTwice GoInt.three (fixedDelay 5))
        TestWorld.start).ret =
        (Run testSleep observedDepth (fresh cancelCtx failTwice GoInt.three none)
          TestWorld.start).ret ∧
      calls (Run testSleep observedDepth (fresh cancelCtx failTwice GoInt.three (fixedDelay 5))
          TestWorld.start).trace =
        calls (Run testSleep observedDepth (fresh cancelCtx failTwice GoInt.three none)
          TestWorld.start).trace ∧
      samples (Run testSleep observedDepth
          (fresh cancelCtx failTwice GoInt.three (fixedDelay 5)) TestWorld.start).trace =
        samples (Run testSleep observedDepth (fresh cancelCtx failTwice GoInt.three none)
          TestWorld.start).trace ∧
      withoutSleeps (Run testSleep observedDepth
          (fresh cancelCtx failTwice GoInt.three (fixedDelay 5)) TestWorld.start).trace =
        (Run testSleep observedDepth (fresh cancelCtx failTwice GoInt.three none)
          TestWorld.start).trace ∧
      TestWorld.timeless (Run testSleep observedDepth
          (fresh cancelCtx failTwice GoInt.three (fixedDelay 5)) TestWorld.start).state =
        TestWorld.timeless (Run testSleep observedDepth
          (fresh cancelCtx failTwice GoInt.three none) TestWorld.start).state ∧
      (TimesDelayedCtx testSleep observedDepth (some cancelCtx) GoInt.three (some failTwice) 5
          TestWorld.start).ret =
        (TimesCtx testSleep observedDepth (some cancelCtx) GoInt.three (some failTwice)
          TestWorld.start).ret ∧
      withoutSleeps (TimesDelayedCtx testSleep observedDepth (some cancelCtx) GoInt.three
          (some failTwice) 5 TestWorld.start).trace =
        (TimesCtx testSleep observedDepth (some cancelCtx) GoInt.three (some failTwice)
          TestWorld.start).trace :=
  delay_changes_only_sleeps testSleep observedDepth failTwice cancelCtx TestWorld.timeless
    GoInt.three (fixedDelay 5) 5 TestWorld.start
    (fun e t => by simp [testSleep, TestWorld.timeless])
    (fun t u h => by
      simp only [TestWorld.timeless, Prod.mk.injEq] at h
      simp [failTwice, failUntil, TestWorld.timeless, h.1, h.2])
    (fun t u h => by
      simp only [TestWorld.timeless, Prod.mk.injEq] at h
      simp [cancelCtx, TestWorld.timeless, h.1, h.2])

end Retry
